import Mathlib

/-!
Verification of the canopy record store and inheritance resolver.

Shallow embedding of the core of the `canopy` repository:
  * `src/types.ts`  — data model (`Section`, `Prompt`) and the constants
    `LOCK_STALE_MS`, `LOCK_RETRY_MS`, `LOCK_TIMEOUT_MS`, `MAX_INHERIT_DEPTH`;
  * `src/render.ts` — `resolvePrompt` / `resolveInner` / `findPrompt` /
    `mergeSections`;
  * `src/store.ts`  — `acquireLock`, `readJsonl`, `appendJsonl`,
    `dedupById`, `getVersions`.

TypeScript strings are modelled as `List Char`; the insertion-ordered
JavaScript `Map` is modelled as an association list where updating an
existing key rewrites the value in place (keeping the key's position)
and a new key is appended at the end, matching `Map.prototype.set` and
`Array.from(map.values())` iteration order.
-/

namespace Canopy

/-- `MAX_INHERIT_DEPTH` from `src/types.ts`. -/
def MAX_INHERIT_DEPTH : Nat := 5

/-- `LOCK_STALE_MS` from `src/types.ts`. -/
def LOCK_STALE_MS : Nat := 30000

/-- `LOCK_RETRY_MS` from `src/types.ts`. -/
def LOCK_RETRY_MS : Nat := 50

/-- `LOCK_TIMEOUT_MS` from `src/types.ts`. -/
def LOCK_TIMEOUT_MS : Nat := 5000

/-- `Section` from `src/types.ts`: a named unit of content. -/
structure Section where
  name : String
  body : String
  required : Option Bool := none
deriving DecidableEq, Repr

/-- `status` field values of a `Prompt`. -/
inductive Status where
  | draft
  | active
  | archived
deriving DecidableEq, Repr

/-- `Prompt` from `src/types.ts`.  The parent reference field is called
`extends` in the source; Lean reserves that word, so it is written with
guillemets. -/
structure Prompt where
  id : String
  name : String
  description : Option String := none
  version : Nat
  sections : List Section
  «extends» : Option String := none
  tags : Option (List String) := none
  schema : Option String := none
  emitAs : Option String := none
  pinned : Option Nat := none
  status : Status := Status.active
  createdAt : String := ""
  updatedAt : String := ""
deriving DecidableEq, Repr

/-! ## Inheritance resolver (`src/render.ts`) -/

/-- Result record of `resolvePrompt` (`RenderResult` in `src/render.ts`). -/
structure RenderResult where
  sections : List Section
  resolvedFrom : List String
  version : Nat
deriving DecidableEq, Repr

/-- The three `throw new Error(...)` sites in `src/render.ts`, carrying the
data interpolated into each message. -/
inductive ResolveErr where
  | circular (chain : List String)
  | depthExceeded (limit : Nat) (name : String) (chain : List String)
  | notFound (name : String) (version : Option Nat)
deriving DecidableEq, Repr

/-- The exact message string each `throw` site in `src/render.ts` builds. -/
def ResolveErr.message : ResolveErr → String
  | .circular chain =>
      "Circular inheritance: " ++ String.intercalate " → " chain
  | .depthExceeded limit name chain =>
      "Inheritance depth limit (" ++ toString limit ++ ") exceeded at \"" ++
        name ++ "\". Chain: " ++ String.intercalate " → " chain
  | .notFound name version =>
      "Prompt \"" ++ name ++
        (match version with
         | some v => "@" ++ toString v
         | none => "") ++ "\" not found"

/-- `findPrompt` from `src/render.ts`: with an explicit version, the exact
(name, version) record; otherwise the latest version for the name, found by
`reduce` over the candidates (seeded with the first candidate, replacing
only on a strictly greater version). -/
def findPrompt (prompts : List Prompt) (name : String) (version : Option Nat) :
    Option Prompt :=
  match version with
  | some v => prompts.find? (fun p => p.name = name ∧ p.version = v)
  | none =>
      match prompts.filter (fun p => p.name = name) with
      | [] => none
      | c :: cs =>
          some (cs.foldl (fun best p => if best.version < p.version then p else best) c)

/-- One iteration of the `for (const childSection of childSections)` loop in
`mergeSections` (`src/render.ts`): look up the first same-named section in
the accumulated list; an empty body removes it (or does nothing), otherwise
the child section overrides in place or is appended. -/
def mergeStep (result : List Section) (childSection : Section) : List Section :=
  match result.findIdx? (fun s => s.name = childSection.name) with
  | some parentIdx =>
      if childSection.body = "" then result.eraseIdx parentIdx
      else result.set parentIdx childSection
  | none =>
      if childSection.body = "" then result else result ++ [childSection]

/-- `mergeSections` from `src/render.ts`: start from the parent's sections
and fold every child section through `mergeStep`. -/
def mergeSections (parentSections childSections : List Section) : List Section :=
  childSections.foldl mergeStep parentSections

/-- `resolveInner` from `src/render.ts`.  The mutable `visited` array is
threaded functionally: the recursive call receives `visited ++ [name]`,
mirroring `visited.push(name)` before the recursion (the array is not read
after the recursive call returns). -/
def resolveInner (name : String) (prompts : List Prompt) (version : Option Nat)
    (visited : List String) : Except ResolveErr RenderResult :=
  if name ∈ visited then
    .error (.circular (visited ++ [name]))
  else if _h : MAX_INHERIT_DEPTH ≤ visited.length then
    .error (.depthExceeded MAX_INHERIT_DEPTH name visited)
  else
    match findPrompt prompts name version with
    | none => .error (.notFound name version)
    | some prompt =>
        match prompt.«extends» with
        | none =>
            .ok { sections := prompt.sections.filter (fun s => ¬ s.body = "")
                  resolvedFrom := [name]
                  version := prompt.version }
        | some parent =>
            match resolveInner parent prompts none (visited ++ [name]) with
            | .error e => .error e
            | .ok parentResult =>
                .ok { sections := mergeSections parentResult.sections prompt.sections
                      resolvedFrom := parentResult.resolvedFrom ++ [name]
                      version := prompt.version }
termination_by MAX_INHERIT_DEPTH - visited.length
decreasing_by
  simp only [List.length_append, List.length_cons, List.length_nil]
  omega

/-- `resolvePrompt` from `src/render.ts`. -/
def resolvePrompt (name : String) (prompts : List Prompt) (version : Option Nat) :
    Except ResolveErr RenderResult :=
  resolveInner name prompts version []

/-! ## Record store (`src/store.ts`)

File contents are modelled as `List Char`.  `text.split "\n"` is
`splitLines`, `line.trim` is `trim` (ASCII whitespace), and JSON
serialization is an abstract encoder/decoder pair, universally
quantified in the theorems with the properties `JSON.stringify`
guarantees for a record: round-trip through `JSON.parse`, no newline,
no surrounding whitespace, non-empty. -/

/-- Whitespace recognised by `trim` (ASCII subset of JS `String.trim`). -/
def isWS (c : Char) : Bool := c = ' ' ∨ c = '\t' ∨ c = '\n' ∨ c = '\r'

/-- `line.trim` on a string modelled as a character list. -/
def trim (l : List Char) : List Char :=
  ((l.dropWhile isWS).reverse.dropWhile isWS).reverse

/-- `text.split "\n")` on a string modelled as a character list: the chunks
between newline characters (always at least one chunk, possibly empty). -/
def splitLines : List Char → List (List Char)
  | [] => [[]]
  | c :: rest =>
      if c = '\n' then [] :: splitLines rest
      else
        match splitLines rest with
        | [] => [[c]]
        | l :: ls => (c :: l) :: ls

/-- Outcome of the underlying `Bun.file(path).text()` read: the file's
text, an `ENOENT` for a missing file, or some other I/O error. -/
inductive ReadOutcome where
  | text (s : List Char)
  | enoent
  | ioError (code : String)
deriving DecidableEq, Repr

/-- One iteration of the line loop of `readJsonl` (`src/store.ts`): trim
the line, skip it when blank, otherwise parse it, yielding nothing for a
line the parser rejects. -/
def lineParse {T : Type} (parse : List Char → Option T) (line : List Char) : Option T :=
  let trimmed := trim line
  if trimmed = [] then none else parse trimmed

/-- The line loop of `readJsonl` (`src/store.ts`) over a whole text. -/
def parseLines {T : Type} (parse : List Char → Option T) (s : List Char) : List T :=
  (splitLines s).filterMap (lineParse parse)

/-- `readJsonl` from `src/store.ts`.  The whole body sits inside
`try { ... } catch { return [] }`, so *every* failing read — `ENOENT` or
any other I/O error — yields `[]`; the function itself never throws, which
the `Except` result type makes visible. -/
def readJsonl {T : Type} (parse : List Char → Option T) (file : ReadOutcome) :
    Except String (List T) :=
  match file with
  | .text s => .ok (parseLines parse s)
  | .enoent => .ok []
  | .ioError _ => .ok []

/-- `appendJsonl` from `src/store.ts`: read the existing text (`""` when
the read fails), concatenate one serialized line plus `"\n"`, and atomically
replace the file.  `none` models an absent file. -/
def appendJsonl {T : Type} (enc : T → List Char) (file : Option (List Char))
    (record : T) : List Char :=
  let line := enc record ++ ['\n']
  let existing := file.getD []
  if existing = [] then line else existing ++ line

/-- State of the on-disk file across a sequence of `appendJsonl` calls. -/
def appendAll {T : Type} (enc : T → List Char) (file : Option (List Char))
    (records : List T) : Option (List Char) :=
  records.foldl (fun f r => some (appendJsonl enc f r)) file

/-- Insertion-ordered JavaScript `Map.set`: an existing key keeps its
position and gets the new value; a new key is appended. -/
def mapSet {K V : Type} [DecidableEq K] (m : List (K × V)) (k : K) (v : V) :
    List (K × V) :=
  if m.any (fun p => p.1 = k) then
    m.map (fun p => if p.1 = k then (k, v) else p)
  else m ++ [(k, v)]

/-- JavaScript `Map.get`. -/
def mapGet {K V : Type} [DecidableEq K] (m : List (K × V)) (k : K) : Option V :=
  (m.find? (fun p => p.1 = k)).map (fun p => p.2)

/-- The loop body of `dedupById` (`src/store.ts`): one `Map.set` per
record, keeping the incoming record when
`record.version >= existing.version`. -/
def dedupStep {T : Type} (id : T → String) (version : T → Nat)
    (map : List (String × T)) (record : T) : List (String × T) :=
  match mapGet map (id record) with
  | none => mapSet map (id record) record
  | some existing =>
      if version existing ≤ version record then mapSet map (id record) record
      else map

/-- `dedupById` from `src/store.ts`, generic over the record type through
the `id`/`version` projections (the TS function is generic over
`T extends { id: string; version: number }`). -/
def dedupById {T : Type} (id : T → String) (version : T → Nat)
    (records : List T) : List T :=
  (records.foldl (dedupStep id version) []).map (fun p => p.2)

/-- The loop body of `getVersions` (`src/store.ts`): records of the queried
id enter a `Map` keyed by exact version, so a duplicate version keeps only
the last occurrence. -/
def versionStep {T : Type} (id : T → String) (version : T → Nat) (i : String)
    (seen : List (Nat × T)) (record : T) : List (Nat × T) :=
  if id record = i then mapSet seen (version record) record else seen

/-- `getVersions` from `src/store.ts`: collect records of the given id into
a `Map` keyed by exact version (last occurrence wins), then sort the values
ascending by version (`.sort((a, b) => a.version - b.version)`). -/
def getVersions {T : Type} (id : T → String) (version : T → Nat)
    (records : List T) (i : String) : List T :=
  ((records.foldl (versionStep id version i) []).map (fun p => p.2)).mergeSort
    (fun a b => version a ≤ version b)

/-! ## Lock manager (`src/store.ts`, `acquireLock`)

Single-acquirer model of the polling loop.  The world holds the current
wall-clock time and the lock marker (`some mtime` when the marker file
exists).  Within one process, time advances only across `Bun.sleep`;
`openSync`/`statSync`/`unlinkSync` are instantaneous.  `fuel` bounds the
number of loop iterations so the model is total; every theorem supplies
enough fuel that the bound is never the reason a run stops. -/

structure LockWorld where
  time : Nat
  marker : Option Nat
deriving DecidableEq, Repr

/-- The `while (Date.now() < deadline)` loop of `acquireLock`
(`src/store.ts`).  One iteration: if the marker is absent, the exclusive
create succeeds and the loop returns; otherwise (`EEXIST`) the marker's age
is checked — a stale marker (age strictly above `LOCK_STALE_MS`) is
unlinked and the loop `continue`s immediately, a fresh one makes the caller
sleep `LOCK_RETRY_MS` before the next iteration. -/
def acquireGo (deadline : Nat) : Nat → LockWorld → Except String LockWorld
  | 0, _ => .error "fuel exhausted"
  | fuel + 1, w =>
      if w.time < deadline then
        match w.marker with
        | none => .ok { w with marker := some w.time }
        | some mtime =>
            if LOCK_STALE_MS < w.time - mtime then
              acquireGo deadline fuel { w with marker := none }
            else
              acquireGo deadline fuel { w with time := w.time + LOCK_RETRY_MS }
      else
        .error ("Timeout acquiring lock after " ++ toString LOCK_TIMEOUT_MS ++ "ms")

/-- `acquireLock` from `src/store.ts`: the deadline is
`Date.now() + LOCK_TIMEOUT_MS` at entry. -/
def acquireLock (fuel : Nat) (w : LockWorld) : Except String LockWorld :=
  acquireGo (w.time + LOCK_TIMEOUT_MS) fuel w

/-! ## Specification-side definitions

The definitions below restate properties from the natural-language
specification in a form independent of the code, to be compared with the
code-derived definitions above. -/

/-- What the spec says becomes of one parent section under a merge: kept
verbatim when the child has no same-named section, dropped when the
child's same-named section carries the empty-body sentinel, otherwise
replaced by the child's section. -/
def overrideFor (child : List Section) (s : Section) : Option Section :=
  match child.find? (fun c => c.name = s.name) with
  | none => some s
  | some c => if c.body = "" then none else some c

/-- The child's genuinely new sections per the spec: non-empty body and a
name occurring nowhere in the parent list, in the child's declared order. -/
def childOnly (parent child : List Section) : List Section :=
  child.filter (fun c => ¬ c.body = "" ∧ parent.all (fun s => ¬ s.name = c.name))

/-- Spec reading of the merge result: the parent's sections in the
parent's order — each kept, overridden in place, or dropped — followed by
the child-only sections in the child's declared order. -/
def mergeSpec (parent child : List Section) : List Section :=
  parent.filterMap (overrideFor child) ++ childOnly parent child

/-- Section `A = "1"` of the spec's override/removal/append examples. -/
def secA1 : Section := ⟨"A", "1", none⟩

/-- Section `B = "2"` of the spec's override/removal examples. -/
def secB2 : Section := ⟨"B", "2", none⟩

/-- Section `B = "3"` of the spec's override example. -/
def secB3 : Section := ⟨"B", "3", none⟩

/-- Section `B = ""` (removal sentinel) of the spec's removal example. -/
def secBdel : Section := ⟨"B", "", none⟩

/-- Section `C = "2"` of the spec's append example. -/
def secC2 : Section := ⟨"C", "2", none⟩

/-- The maximum `version` occurring in a list of records (0 for the
empty list). -/
def maxVersion {T : Type} (version : T → Nat) (g : List T) : Nat :=
  (g.map version).foldr max 0

/-- The record the spec says deduplication keeps for one identity: the
last occurrence among those carrying the maximum version. -/
def lastMax {T : Type} (version : T → Nat) (g : List T) : Option T :=
  (g.filter (fun s => version s = maxVersion version g)).getLast?

/-- `linksOk parent cs` holds when `cs` is a single-parent chain whose
first record extends `parent` and each later record extends the one
before it. -/
def linksOk : Option String → List Prompt → Bool
  | _, [] => true
  | parent, p :: rest => p.«extends» = parent && linksOk (some p.name) rest

/-- An acyclic single-parent chain, listed root first: pairwise distinct
names, the root extends nothing, and every other record extends its
predecessor. -/
def IsChain (cs : List Prompt) : Prop :=
  (cs.map (fun p => p.name)).Nodup ∧ linksOk none cs = true

/-- Ancestor resolution: exactly `resolveInner` but with no version
parameter at all — every lookup is `findPrompt _ _ none`, the
latest-version-by-name rule.  `resolveInner` delegating to this shape on
every recursive call is what makes "pinning never applies to ancestors"
a theorem. -/
def resolveAncestor (name : String) (prompts : List Prompt) (visited : List String) :
    Except ResolveErr RenderResult :=
  if name ∈ visited then
    .error (.circular (visited ++ [name]))
  else if _h : MAX_INHERIT_DEPTH ≤ visited.length then
    .error (.depthExceeded MAX_INHERIT_DEPTH name visited)
  else
    match findPrompt prompts name none with
    | none => .error (.notFound name none)
    | some prompt =>
        match prompt.«extends» with
        | none =>
            .ok { sections := prompt.sections.filter (fun s => ¬ s.body = "")
                  resolvedFrom := [name]
                  version := prompt.version }
        | some parent =>
            match resolveAncestor parent prompts (visited ++ [name]) with
            | .error e => .error e
            | .ok parentResult =>
                .ok { sections := mergeSections parentResult.sections prompt.sections
                      resolvedFrom := parentResult.resolvedFrom ++ [name]
                      version := prompt.version }
termination_by MAX_INHERIT_DEPTH - visited.length
decreasing_by
  simp only [List.length_append, List.length_cons, List.length_nil]
  omega

/-! ## Concrete inputs used by the witness theorems -/

/-- A base record with one empty-body section. -/
def exBase : Prompt :=
  { id := "id-base", name := "base", version := 3,
    sections := [⟨"A", "1", none⟩, ⟨"B", "", none⟩, ⟨"C", "2", none⟩] }

/-- Cycle example: `a extends b`. -/
def exCycA : Prompt :=
  { id := "id-a", name := "a", version := 1, sections := [],
    «extends» := some "b" }

/-- Cycle example: `b extends a`. -/
def exCycB : Prompt :=
  { id := "id-b", name := "b", version := 1, sections := [],
    «extends» := some "a" }

/-- Old version of the parent record used by the ancestor-pinning witness. -/
def exPar1 : Prompt :=
  { id := "id-par", name := "par", version := 1,
    sections := [⟨"P", "old", none⟩] }

/-- Latest version of the parent record used by the ancestor-pinning witness. -/
def exPar2 : Prompt :=
  { id := "id-par", name := "par", version := 2,
    sections := [⟨"P", "new", none⟩] }

/-- Child record, requested at an explicit version, extending `par`. -/
def exChild : Prompt :=
  { id := "id-child", name := "child", version := 1,
    sections := [⟨"C", "c", none⟩], «extends» := some "par" }

/-- Name of the `i`-th record of the witness chains. -/
def chainName (i : Nat) : String := "p" ++ toString i

/-- A linear inheritance chain of `n` records, root first: `p0` extends
nothing, `p(i+1)` extends `p(i)`. -/
def mkChain (n : Nat) : List Prompt :=
  (List.range n).map (fun i =>
    { id := chainName i, name := chainName i, version := 1,
      sections := [⟨"S" ++ toString i, "body" ++ toString i, none⟩],
      «extends» := if i = 0 then none else some (chainName (i - 1)) })

/-- Dedup witness record: id "a" at version 1. -/
def exD1 : Prompt := { id := "a", name := "n1", version := 1, sections := [] }

/-- Dedup witness record: id "a" at version 2 (first occurrence of the max). -/
def exD2 : Prompt := { id := "a", name := "n2", version := 2, sections := [] }

/-- Dedup witness record: id "b" at version 1. -/
def exD3 : Prompt := { id := "b", name := "n3", version := 1, sections := [] }

/-- Dedup witness record: id "a" at version 2 again — a merge-duplicate tie
that must win by being the last occurrence. -/
def exD4 : Prompt := { id := "a", name := "n4", version := 2, sections := [] }

/-- Input list of the deduplication witness. -/
def exDedup : List Prompt := [exD1, exD2, exD3, exD4]

/-- The read outcome an on-disk file state produces: absent file →
`ENOENT`, present file → its text. -/
def fileOutcome : Option (List Char) → ReadOutcome
  | none => .enoent
  | some s => .text s

/-- The on-disk format invariant of §6 of the spec: every line — if any —
ends with a trailing newline. -/
def WellFormedFile : Option (List Char) → Prop
  | none => True
  | some s => s = [] ∨ s.getLast? = some '\n'

/-- A tiny concrete record encoder used by the store witnesses. -/
def boolEnc : Bool → List Char := fun b => if b then ['t'] else ['f']

/-- The decoder matching `boolEnc`; everything else is a malformed line. -/
def boolDec : List Char → Option Bool := fun s =>
  if s = ['t'] then some true else if s = ['f'] then some false else none

/-! # Theorems -/

/-! ## Generic helper lemmas -/

theorem filter_eq_singleton_of_nodup {α β : Type} [DecidableEq β] (f : α → β) :
    ∀ (l : List α) (x : α), (l.map f).Nodup → x ∈ l →
      l.filter (fun y => f y = f x) = [x] := by
  intro l
  induction l with
  | nil => intro x _ hx; cases hx
  | cons a t ih =>
      intro x hn hx
      simp only [List.map_cons, List.nodup_cons] at hn
      rcases List.mem_cons.mp hx with rfl | hxt
      · rw [List.filter_cons_of_pos (by simp)]
        have ht : t.filter (fun y => decide (f y = f x)) = [] := by
          apply List.filter_eq_nil_iff.mpr
          intro y hy
          simp only [decide_eq_true_eq]
          intro hfe
          exact hn.1 (hfe ▸ List.mem_map_of_mem f hy)
        rw [ht]
      · have hne : ¬ f a = f x := fun hfe => hn.1 (hfe ▸ List.mem_map_of_mem f hxt)
        rw [List.filter_cons_of_neg (by simp [hne])]
        exact ih x hn.2 hxt

theorem foldl_best_mem (cs : List Prompt) (c : Prompt) :
    cs.foldl (fun best p => if best.version < p.version then p else best) c ∈ c :: cs := by
  induction cs generalizing c with
  | nil => simp [List.foldl]
  | cons p t ih =>
      simp only [List.foldl_cons]
      rcases List.mem_cons.mp (ih (if c.version < p.version then p else c)) with h | h
      · rw [h]
        by_cases hv : c.version < p.version <;> simp [hv]
      · exact List.mem_cons_of_mem _ (List.mem_cons_of_mem _ h)

theorem foldl_best_ge (cs : List Prompt) (c : Prompt) :
    ∀ q ∈ c :: cs,
      q.version ≤ (cs.foldl (fun best p => if best.version < p.version then p else best) c).version := by
  induction cs generalizing c with
  | nil =>
      intro q hq
      simp only [List.mem_singleton] at hq
      subst hq
      exact le_rfl
  | cons p t ih =>
      intro q hq
      simp only [List.foldl_cons]
      have step := ih (if c.version < p.version then p else c)
      rcases List.mem_cons.mp hq with rfl | hq'
      · refine le_trans ?_ (step _ (List.mem_cons_self _ _))
        rcases Nat.lt_or_ge q.version p.version with hv | hv
        · rw [if_pos hv]; omega
        · rw [if_neg (Nat.not_lt.mpr hv)]
      · rcases List.mem_cons.mp hq' with rfl | hq''
        · refine le_trans ?_ (step _ (List.mem_cons_self _ _))
          rcases Nat.lt_or_ge c.version q.version with hv | hv
          · rw [if_pos hv]
          · rw [if_neg (Nat.not_lt.mpr hv)]; omega
        · exact step q (List.mem_cons_of_mem _ hq'')

theorem findPrompt_none_spec (prompts : List Prompt) (name : String) (p : Prompt)
    (h : findPrompt prompts name none = some p) :
    p ∈ prompts ∧ p.name = name ∧
      ∀ q ∈ prompts, q.name = name → q.version ≤ p.version := by
  rw [findPrompt] at h
  rcases hc : prompts.filter (fun p => decide (p.name = name)) with _ | ⟨c, cs⟩ <;>
    rw [hc] at h
  · exact absurd h (by simp)
  · have hp : p = cs.foldl (fun best p => if best.version < p.version then p else best) c := by
      exact (Option.some.injEq _ _ ▸ h).symm
    have hmem : p ∈ c :: cs := hp ▸ foldl_best_mem cs c
    have hmemf : p ∈ prompts.filter (fun p => decide (p.name = name)) := hc ▸ hmem
    refine ⟨List.mem_of_mem_filter hmemf, by simpa using List.of_mem_filter hmemf, ?_⟩
    intro q hq hqn
    have hqf : q ∈ prompts.filter (fun p => decide (p.name = name)) :=
      List.mem_filter.mpr ⟨hq, by simp [hqn]⟩
    rw [hc] at hqf
    exact hp ▸ foldl_best_ge cs c q hqf

/-! ## Resolver: guard and base-case lemmas -/

theorem resolveInner_visited (name : String) (prompts : List Prompt)
    (version : Option Nat) (visited : List String) (h : name ∈ visited) :
    resolveInner name prompts version visited = .error (.circular (visited ++ [name])) := by
  rw [resolveInner]; simp [h]

/-- Claim C7: a record with no `extends` resolves to exactly its own
sections with empty-string bodies removed, in the record's original
order, with `resolvedFrom` the single-element list of the record's
name. -/
theorem resolve_base_case (name : String) (prompts : List Prompt) (version : Option Nat)
    (p : Prompt) (hf : findPrompt prompts name version = some p)
    (hx : p.«extends» = none) :
    resolvePrompt name prompts version =
      .ok { sections := p.sections.filter (fun s => ¬ s.body = ""),
            resolvedFrom := [name], version := p.version } := by
  rw [resolvePrompt, resolveInner]
  simp [hf, hx, MAX_INHERIT_DEPTH]

theorem resolve_base_case_witness :
    findPrompt [exBase] "base" none = some exBase ∧ exBase.«extends» = none ∧
    resolvePrompt "base" [exBase] none =
      .ok { sections := [⟨"A", "1", none⟩, ⟨"C", "2", none⟩],
            resolvedFrom := ["base"], version := 3 } :=
  ⟨by decide, rfl,
    (resolve_base_case "base" [exBase] none exBase (by decide) rfl).trans (by rfl)⟩

/-- Claim C5: a name reappearing on the current resolution path fails
with a CircularInheritance error carrying the full offending chain, and
its message names that chain; in particular `a extends b`, `b extends a`
makes `Resolve "a"` fail naming a → b → a. -/
theorem resolve_cycle_detection :
    (∀ (name : String) (prompts : List Prompt) (version : Option Nat)
        (visited : List String), name ∈ visited →
        resolveInner name prompts version visited =
          .error (.circular (visited ++ [name]))) ∧
    (∀ a b : Prompt, a.name ≠ b.name →
        a.«extends» = some b.name → b.«extends» = some a.name →
        resolvePrompt a.name [a, b] none =
          .error (.circular [a.name, b.name, a.name])) ∧
    (ResolveErr.circular ["a", "b", "a"]).message = "Circular inheritance: a → b → a" := by
  refine ⟨resolveInner_visited, ?_, by decide⟩
  intro a b hne ha hb
  have hba : ¬ b.name = a.name := fun h => hne h.symm
  have h3 : resolveInner a.name [a, b] none [a.name, b.name] =
      .error (.circular [a.name, b.name, a.name]) :=
    resolveInner_visited _ _ _ _ (by simp)
  have hfindb : findPrompt [a, b] b.name none = some b := by
    rw [findPrompt]
    have hfilter : List.filter (fun p => decide (p.name = b.name)) [a, b] = [b] := by
      simp [List.filter_cons, hne]
    rw [hfilter]
    rfl
  have hfinda : findPrompt [a, b] a.name none = some a := by
    rw [findPrompt]
    have hfilter : List.filter (fun p => decide (p.name = a.name)) [a, b] = [a] := by
      simp [List.filter_cons, hba]
    rw [hfilter]
    rfl
  have h2 : resolveInner b.name [a, b] none [a.name] =
      .error (.circular [a.name, b.name, a.name]) := by
    rw [resolveInner]
    simp [hba, MAX_INHERIT_DEPTH, hfindb, hb, h3]
  rw [resolvePrompt, resolveInner]
  simp [MAX_INHERIT_DEPTH, hfinda, ha, h2]

/-! ## Resolver: depth limit (single-parent chains) -/

theorem linksOk_of_append (parent : Option String) :
    ∀ xs ys, linksOk parent (xs ++ ys) = true → linksOk parent xs = true := by
  intro xs
  induction xs generalizing parent with
  | nil => intro ys _; rfl
  | cons x t ih =>
      intro ys h
      simp only [List.cons_append, linksOk, Bool.and_eq_true] at h ⊢
      exact ⟨h.1, ih (some x.name) ys h.2⟩

theorem linksOk_snoc (parent : Option String) :
    ∀ (xs : List Prompt) (x : Prompt),
      linksOk parent (xs ++ [x]) = true →
        linksOk parent xs = true ∧
          x.«extends» = xs.getLast?.elim parent (fun y => some y.name) := by
  intro xs
  induction xs generalizing parent with
  | nil =>
      intro x h
      simp only [List.nil_append, linksOk, Bool.and_eq_true, decide_eq_true_eq] at h
      exact ⟨rfl, by simpa using h.1⟩
  | cons y ys ih =>
      intro x h
      simp only [List.cons_append, linksOk, Bool.and_eq_true] at h ⊢
      obtain ⟨hy, hrest⟩ := h
      obtain ⟨hys, hx⟩ := ih (some y.name) x hrest
      refine ⟨⟨hy, hys⟩, ?_⟩
      cases ys with
      | nil => simpa using hx
      | cons z zs => simpa [List.getLast?_cons_cons] using hx

theorem filter_name_eq (full : List Prompt) (x : Prompt)
    (hnd : (full.map (fun p => p.name)).Nodup) (hx : x ∈ full) :
    full.filter (fun p => p.name = x.name) = [x] :=
  filter_eq_singleton_of_nodup (fun p => p.name) full x hnd hx

theorem findPrompt_of_nodup (full : List Prompt) (x : Prompt)
    (hnd : (full.map (fun p => p.name)).Nodup) (hx : x ∈ full) :
    findPrompt full x.name none = some x := by
  rw [findPrompt, filter_name_eq full x hnd hx]
  rfl

theorem chain_walk :
    ∀ (cs full : List Prompt) (visited : List String),
      (full.map (fun p => p.name)).Nodup →
      cs <+: full →
      linksOk none cs = true →
      (∀ p ∈ cs, p.name ∉ visited) →
      ∀ leaf : Prompt, cs.getLast? = some leaf →
        (visited.length + cs.length ≤ MAX_INHERIT_DEPTH →
            ∃ res, resolveInner leaf.name full none visited = .ok res) ∧
        (MAX_INHERIT_DEPTH < visited.length + cs.length →
            ∃ nm chain, resolveInner leaf.name full none visited =
              .error (.depthExceeded MAX_INHERIT_DEPTH nm chain)) := by
  intro cs
  induction cs using List.reverseRecOn with
  | nil =>
      intro full visited _ _ _ _ leaf hleaf
      simp at hleaf
  | append_singleton init leaf0 ih =>
      intro full visited hnd hpre hlinks hvis leaf hleaf
      have hleaf0 : leaf = leaf0 := by
        rw [List.getLast?_concat] at hleaf
        exact (Option.some.injEq _ _ ▸ hleaf).symm
      subst hleaf0
      have hlen : (init ++ [leaf]).length = init.length + 1 := by simp
      have hmem_cs : leaf ∈ init ++ [leaf] := by simp
      have hmem : leaf ∈ full := hpre.subset hmem_cs
      have hnvis : leaf.name ∉ visited := hvis leaf hmem_cs
      have hcs_nd : ((init ++ [leaf]).map (fun p => p.name)).Nodup :=
        ((hpre.sublist.map (fun p => p.name)).nodup hnd)
      rw [resolveInner, if_neg hnvis]
      by_cases hd : MAX_INHERIT_DEPTH ≤ visited.length
      · rw [dif_pos hd]
        constructor
        · intro hle
          exfalso
          rw [hlen] at hle
          omega
        · intro _
          exact ⟨leaf.name, visited, rfl⟩
      · rw [dif_neg hd]
        have hfind : findPrompt full leaf.name none = some leaf :=
          findPrompt_of_nodup full leaf hnd hmem
        have hsnoc := linksOk_snoc none init leaf hlinks
        cases hinit : init.getLast? with
        | none =>
            have hinil : init = [] := List.getLast?_eq_none_iff.mp hinit
            have hx : leaf.«extends» = none := by
              rw [hinit] at hsnoc
              simpa using hsnoc.2
            simp only [hfind, hx]
            constructor
            · intro _
              exact ⟨_, rfl⟩
            · intro hgt
              exfalso
              rw [hlen, hinil] at hgt
              simp only [MAX_INHERIT_DEPTH, List.length_nil] at hd hgt
              omega
        | some plast =>
            have hx : leaf.«extends» = some plast.name := by
              rw [hinit] at hsnoc
              simpa using hsnoc.2
            simp only [hfind, hx]
            have hpre' : init <+: full :=
              ((List.prefix_append init [leaf]).trans hpre)
            have hlinks' : linksOk none init = true := hsnoc.1
            have hvis' : ∀ p ∈ init, p.name ∉ visited ++ [leaf.name] := by
              intro p hp
              simp only [List.mem_append, List.mem_singleton]
              rintro (h | h)
              · exact hvis p (List.mem_append_left _ hp) h
              · have : p.name ∈ init.map (fun q => q.name) :=
                  List.mem_map_of_mem _ hp
                have hnotin : leaf.name ∉ init.map (fun q => q.name) := by
                  have := hcs_nd
                  rw [List.map_append, List.nodup_append] at this
                  intro hc
                  exact this.2.2 hc (by simp)
                exact hnotin (h ▸ this)
            have := ih full (visited ++ [leaf.name]) hnd hpre' hlinks' hvis' plast hinit
            have hlens : (visited ++ [leaf.name]).length + init.length =
                visited.length + (init ++ [leaf]).length := by simp; omega
            constructor
            · intro hle
              obtain ⟨res, hres⟩ := this.1 (by rw [hlens]; exact hle)
              rw [hres]
              exact ⟨_, rfl⟩
            · intro hgt
              obtain ⟨nm, chain, hres⟩ := this.2 (by rw [hlens]; exact hgt)
              rw [hres]
              exact ⟨nm, chain, rfl⟩

/-- Claim C4: on an acyclic single-parent chain, resolving the deepest
record succeeds whenever the root-to-leaf chain holds at most 5 records
(in particular exactly 5), and fails with a DepthExceeded error — which
carries the limit 5 and a chain — whenever the chain holds more than 5
records (e.g. 7). -/
theorem resolve_depth_limit (cs : List Prompt) (hch : IsChain cs) (leaf : Prompt)
    (hleaf : cs.getLast? = some leaf) :
    (cs.length ≤ 5 → ∃ res, resolvePrompt leaf.name cs none = .ok res) ∧
    (5 < cs.length → ∃ nm chain,
        resolvePrompt leaf.name cs none = .error (.depthExceeded 5 nm chain)) := by
  have h := chain_walk cs cs [] hch.1 (List.prefix_refl cs) hch.2
    (by intro p _ hc; exact (List.not_mem_nil p.name) hc) leaf hleaf
  simp only [List.length_nil, Nat.zero_add, MAX_INHERIT_DEPTH] at h
  exact ⟨fun hle => h.1 hle, fun hgt => h.2 hgt⟩

theorem resolve_depth_limit_witness :
    (IsChain (mkChain 5) ∧ (mkChain 5).length ≤ 5 ∧
      ∃ res, resolvePrompt (chainName 4) (mkChain 5) none = .ok res) ∧
    (IsChain (mkChain 7) ∧ 5 < (mkChain 7).length ∧
      ∃ nm chain, resolvePrompt (chainName 6) (mkChain 7) none =
        .error (.depthExceeded 5 nm chain)) := by
  refine ⟨⟨⟨by decide, by decide⟩, by decide, ?_⟩, ⟨⟨by decide, by decide⟩, by decide, ?_⟩⟩
  · exact (resolve_depth_limit (mkChain 5) ⟨by decide, by decide⟩
      { id := chainName 4, name := chainName 4, version := 1,
        sections := [⟨"S" ++ toString 4, "body" ++ toString 4, none⟩],
        «extends» := some (chainName 3) }
      (by decide)).1 (by decide)
  · exact (resolve_depth_limit (mkChain 7) ⟨by decide, by decide⟩
      { id := chainName 6, name := chainName 6, version := 1,
        sections := [⟨"S" ++ toString 6, "body" ++ toString 6, none⟩],
        «extends» := some (chainName 5) }
      (by decide)).2 (by decide)

/-! ## Resolver: ancestors are always resolved at their latest version -/

theorem resolveInner_none_eq_ancestor_aux :
    ∀ (k : Nat) (visited : List String), MAX_INHERIT_DEPTH - visited.length ≤ k →
      ∀ (name : String) (prompts : List Prompt),
        resolveInner name prompts none visited = resolveAncestor name prompts visited := by
  intro k
  induction k with
  | zero =>
      intro visited hk name prompts
      by_cases hm : name ∈ visited
      · rw [resolveInner, resolveAncestor, if_pos hm, if_pos hm]
      · have hd : MAX_INHERIT_DEPTH ≤ visited.length := by omega
        rw [resolveInner, resolveAncestor, if_neg hm, if_neg hm, dif_pos hd, dif_pos hd]
  | succ k ih =>
      intro visited hk name prompts
      by_cases hm : name ∈ visited
      · rw [resolveInner, resolveAncestor, if_pos hm, if_pos hm]
      · by_cases hd : MAX_INHERIT_DEPTH ≤ visited.length
        · rw [resolveInner, resolveAncestor, if_neg hm, if_neg hm, dif_pos hd, dif_pos hd]
        · rw [resolveInner, resolveAncestor, if_neg hm, if_neg hm, dif_neg hd, dif_neg hd]
          cases hf : findPrompt prompts name none with
          | none => simp only [hf]
          | some p =>
              simp only [hf]
              cases hx : p.«extends» with
              | none => simp only [hx]
              | some parent =>
                  simp only [hx]
                  rw [ih (visited ++ [name]) (by simp only [List.length_append,
                    List.length_cons, List.length_nil]; omega) parent prompts]

/-- Claim C6: every ancestor reached through `extends` is resolved at the
latest version bearing the parent's name, no matter what version argument
(or `pinned` value passed through it) constrained the requesting record:
(1) version-less resolution coincides with `resolveAncestor`, a function
with no version input whose every lookup is latest-by-name; (2) a
latest-by-name lookup returns a record carrying the queried name whose
version is maximal among records with that name; (3) in the recursive
case the requested record's resolution — under any version argument — is
exactly a merge against `resolveAncestor` of its parent. -/
theorem resolve_ancestors_latest :
    (∀ (name : String) (prompts : List Prompt) (visited : List String),
        resolveInner name prompts none visited = resolveAncestor name prompts visited) ∧
    (∀ (prompts : List Prompt) (name : String) (p : Prompt),
        findPrompt prompts name none = some p →
        p ∈ prompts ∧ p.name = name ∧
          ∀ q ∈ prompts, q.name = name → q.version ≤ p.version) ∧
    (∀ (name : String) (prompts : List Prompt) (version : Option Nat)
        (visited : List String) (p : Prompt) (parent : String),
        name ∉ visited → visited.length < MAX_INHERIT_DEPTH →
        findPrompt prompts name version = some p → p.«extends» = some parent →
        resolveInner name prompts version visited =
          match resolveAncestor parent prompts (visited ++ [name]) with
          | .error e => .error e
          | .ok parentResult =>
              .ok { sections := mergeSections parentResult.sections p.sections,
                    resolvedFrom := parentResult.resolvedFrom ++ [name],
                    version := p.version }) := by
  refine ⟨?_, findPrompt_none_spec, ?_⟩
  · intro name prompts visited
    exact resolveInner_none_eq_ancestor_aux (MAX_INHERIT_DEPTH - visited.length)
      visited le_rfl name prompts
  · intro name prompts version visited p parent hm hd hf hx
    rw [resolveInner, if_neg hm, dif_neg (by omega)]
    simp only [hf, hx]
    rw [resolveInner_none_eq_ancestor_aux (MAX_INHERIT_DEPTH - (visited ++ [name]).length)
      (visited ++ [name]) le_rfl parent prompts]

theorem resolve_ancestors_latest_witness :
    ("child" ∉ ([] : List String)) ∧
    ([] : List String).length < MAX_INHERIT_DEPTH ∧
    findPrompt [exPar1, exPar2, exChild] "child" (some 1) = some exChild ∧
    exChild.«extends» = some "par" ∧
    resolveInner "child" [exPar1, exPar2, exChild] (some 1) [] =
      (match resolveAncestor "par" [exPar1, exPar2, exChild] ["child"] with
       | .error e => .error e
       | .ok parentResult =>
           .ok { sections := mergeSections parentResult.sections exChild.sections,
                 resolvedFrom := parentResult.resolvedFrom ++ ["child"],
                 version := exChild.version }) :=
  ⟨by decide, by decide, by decide, rfl,
    resolve_ancestors_latest.2.2 "child" [exPar1, exPar2, exChild] (some 1) [] exChild "par"
      (by decide) (by decide) (by decide) rfl⟩

/-! ## Merge semantics (`mergeSections`) -/

theorem findIdx?_name_none (c : Section) :
    ∀ result : List Section, c.name ∉ result.map Section.name →
      result.findIdx? (fun s => s.name = c.name) = none := by
  intro result h
  rw [List.findIdx?_eq_none_iff]
  intro x hx
  simp only [decide_eq_false_iff_not]
  intro he
  exact h (he ▸ List.mem_map_of_mem Section.name hx)

theorem mergeStep_noop (result : List Section) (c : Section) (hb : c.body = "")
    (hn : c.name ∉ result.map Section.name) : mergeStep result c = result := by
  rw [mergeStep, findIdx?_name_none c result hn]
  simp [hb]

theorem mergeStep_append (result : List Section) (c : Section) (hb : ¬ c.body = "")
    (hn : c.name ∉ result.map Section.name) : mergeStep result c = result ++ [c] := by
  rw [mergeStep, findIdx?_name_none c result hn]
  simp [hb]

theorem mergeStep_remove (c : Section) (hb : c.body = "") :
    ∀ result : List Section, (result.map Section.name).Nodup →
      mergeStep result c = result.filter (fun s => ¬ s.name = c.name) := by
  intro result
  induction result with
  | nil => intro _; simp [mergeStep, hb]
  | cons a t ih =>
      intro hnd
      simp only [List.map_cons, List.nodup_cons] at hnd
      by_cases ha : a.name = c.name
      · have hfi : (a :: t).findIdx? (fun s => decide (s.name = c.name)) = some 0 := by
          rw [List.findIdx?_cons]
          simp [ha]
        have ht : t.filter (fun s => ¬ s.name = c.name) = t := by
          apply List.filter_eq_self.mpr
          intro s hs
          simp only [decide_eq_true_eq]
          intro he
          apply hnd.1
          rw [ha, ← he]
          exact List.mem_map_of_mem Section.name hs
        rw [mergeStep]
        rw [List.filter_cons_of_neg (by simp [ha]), ht]
        simp [hfi, hb]
      · have hfi : (a :: t).findIdx? (fun s => decide (s.name = c.name)) =
            (t.findIdx? (fun s => decide (s.name = c.name))).map (· + 1) := by
          rw [List.findIdx?_cons]
          simp [ha]
        rw [mergeStep]
        rw [List.filter_cons_of_pos (by simp [ha])]
        cases hfit : t.findIdx? (fun s => decide (s.name = c.name)) with
        | none =>
            have ht : t.filter (fun s => ¬ s.name = c.name) = t := by
              apply List.filter_eq_self.mpr
              intro s hs
              have := List.findIdx?_eq_none_iff.mp hfit s hs
              simpa using this
            rw [ht]
            simp [hfi, hfit, hb]
        | some i =>
            have hstep : mergeStep t c = t.eraseIdx i := by
              rw [mergeStep]
              simp [hfit, hb]
            have heq := ih hnd.2
            rw [hstep] at heq
            simp [hfi, hfit, hb, List.eraseIdx_cons_succ, heq]

theorem mergeStep_override (c : Section) (hb : ¬ c.body = "") :
    ∀ result : List Section, (result.map Section.name).Nodup →
      c.name ∈ result.map Section.name →
      mergeStep result c = result.map (fun s => if s.name = c.name then c else s) := by
  intro result
  induction result with
  | nil => intro _ h; cases h
  | cons a t ih =>
      intro hnd hmem
      simp only [List.map_cons, List.nodup_cons] at hnd
      by_cases ha : a.name = c.name
      · have hfi : (a :: t).findIdx? (fun s => decide (s.name = c.name)) = some 0 := by
          rw [List.findIdx?_cons]
          simp [ha]
        have ht : t.map (fun s => if s.name = c.name then c else s) = t := by
          have hptw : ∀ s ∈ t, (if s.name = c.name then c else s) = s := by
            intro s hs
            rw [if_neg ?hne]
            case hne =>
              intro he
              apply hnd.1
              rw [ha, ← he]
              exact List.mem_map_of_mem Section.name hs
          rw [List.map_congr_left hptw]
          exact List.map_id' t
        rw [mergeStep]
        simp [hfi, hb, ha, ht]
      · have hmem' : c.name ∈ t.map Section.name := by
          rcases List.mem_cons.mp hmem with he | h
          · exact absurd he.symm ha
          · exact h
        have hfi : (a :: t).findIdx? (fun s => decide (s.name = c.name)) =
            (t.findIdx? (fun s => decide (s.name = c.name))).map (· + 1) := by
          rw [List.findIdx?_cons]
          simp [ha]
        cases hfit : t.findIdx? (fun s => decide (s.name = c.name)) with
        | none =>
            exfalso
            obtain ⟨s, hs, hsn⟩ := List.mem_map.mp hmem'
            have := List.findIdx?_eq_none_iff.mp hfit s hs
            simp [hsn] at this
        | some i =>
            have hstep : mergeStep t c = t.set i c := by
              rw [mergeStep]
              simp [hfit, hb]
            have heq := ih hnd.2 hmem'
            rw [hstep] at heq
            rw [mergeStep]
            simp [hfi, hfit, hb, ha, List.set_cons_succ, heq]

theorem overrideFor_nil (s : Section) : overrideFor [] s = some s := rfl

theorem overrideFor_cons_pos (c : Section) (cs : List Section) (s : Section)
    (h : c.name = s.name) :
    overrideFor (c :: cs) s = if c.body = "" then none else some c := by
  rw [overrideFor, List.find?_cons_of_pos]
  simp [h]

theorem overrideFor_cons_neg (c : Section) (cs : List Section) (s : Section)
    (h : ¬ c.name = s.name) : overrideFor (c :: cs) s = overrideFor cs s := by
  rw [overrideFor, List.find?_cons_of_neg, overrideFor]
  simp [h]

theorem overrideFor_not_found (child : List Section) (s : Section)
    (h : ∀ x ∈ child, ¬ x.name = s.name) : overrideFor child s = some s := by
  rw [overrideFor, List.find?_eq_none.mpr (by intro x hx; simpa using h x hx)]

theorem override_names (c : Section) (result : List Section) :
    (result.map (fun s => if s.name = c.name then c else s)).map Section.name =
      result.map Section.name := by
  rw [List.map_map]
  apply List.map_congr_left
  intro s _
  by_cases hs : s.name = c.name
  · simp [hs]
  · simp [hs]

theorem all_name_congr (z : String) :
    ∀ (l l' : List Section), l.map Section.name = l'.map Section.name →
      l.all (fun s => ¬ s.name = z) = l'.all (fun s => ¬ s.name = z) := by
  intro l
  induction l with
  | nil =>
      intro l' h
      have : l' = [] := List.map_eq_nil_iff.mp h.symm
      rw [this]
  | cons a t ih =>
      intro l' h
      cases l' with
      | nil => simp at h
      | cons b t' =>
          simp only [List.map_cons, List.cons.injEq] at h
          simp only [List.all_cons, h.1]
          rw [ih t' h.2]

theorem all_filter_other (c : Section) (z : String) (hz : ¬ z = c.name) :
    ∀ parent : List Section,
      (parent.filter (fun s => ¬ s.name = c.name)).all (fun s => ¬ s.name = z) =
        parent.all (fun s => ¬ s.name = z) := by
  intro parent
  induction parent with
  | nil => rfl
  | cons a t ih =>
      by_cases ha : a.name = c.name
      · rw [List.filter_cons_of_neg (by simp [ha]), ih, List.all_cons]
        have hz' : decide (¬ a.name = z) = true := by
          simp only [decide_eq_true_eq]
          intro he
          exact hz (by rw [← he, ha])
        rw [hz', Bool.true_and]
      · rw [List.filter_cons_of_pos (by simp [ha]), List.all_cons, List.all_cons, ih]

theorem mergeStep_names_nodup (c : Section) (result : List Section)
    (hnd : (result.map Section.name).Nodup) :
    ((mergeStep result c).map Section.name).Nodup := by
  by_cases hb : c.body = ""
  · rw [mergeStep_remove c hb result hnd]
    exact ((List.filter_sublist result).map Section.name).nodup hnd
  · by_cases hm : c.name ∈ result.map Section.name
    · rw [mergeStep_override c hb result hnd hm, override_names]
      exact hnd
    · rw [mergeStep_append result c hb hm, List.map_append]
      rw [List.nodup_append]
      exact ⟨hnd, List.nodup_singleton _, by
        intro x hx hx'
        simp only [List.map_cons, List.map_nil, List.mem_singleton] at hx'
        exact hm (hx' ▸ hx)⟩

theorem mergeSpec_step (parent : List Section) (c : Section) (cs : List Section)
    (hpn : (parent.map Section.name).Nodup) (hcn : c.name ∉ cs.map Section.name) :
    mergeSpec parent (c :: cs) = mergeSpec (mergeStep parent c) cs := by
  by_cases hb : c.body = ""
  · rw [mergeStep_remove c hb parent hpn]
    have hA : ∀ q : List Section,
        q.filterMap (overrideFor (c :: cs)) =
          (q.filter (fun s => ¬ s.name = c.name)).filterMap (overrideFor cs) := by
      intro q
      induction q with
      | nil => rfl
      | cons a t ihq =>
          by_cases ha : c.name = a.name
          · rw [List.filterMap_cons, overrideFor_cons_pos c cs a ha, if_pos hb,
              List.filter_cons_of_neg (by simp [ha.symm]), ihq]
          · have hpa : ¬ a.name = c.name := fun he => ha he.symm
            rw [List.filterMap_cons, overrideFor_cons_neg c cs a ha,
              List.filter_cons_of_pos (by simpa using hpa), List.filterMap_cons]
            cases ho : overrideFor cs a with
            | none => rw [ihq]
            | some y => rw [ihq]
    have hB : childOnly parent (c :: cs) =
        childOnly (parent.filter (fun s => ¬ s.name = c.name)) cs := by
      rw [childOnly, childOnly, List.filter_cons_of_neg (by simp [hb])]
      apply List.filter_congr
      intro x hx
      have hxname : ¬ x.name = c.name := by
        intro he
        apply hcn
        rw [← he]
        exact List.mem_map_of_mem Section.name hx
      rw [all_filter_other c x.name hxname parent]
    rw [mergeSpec, mergeSpec, hA parent, hB]
  · by_cases hm : c.name ∈ parent.map Section.name
    · rw [mergeStep_override c hb parent hpn hm]
      have hnotcs : ∀ x ∈ cs, ¬ x.name = c.name := by
        intro x hx he
        apply hcn
        rw [← he]
        exact List.mem_map_of_mem Section.name hx
      have hA : ∀ q : List Section,
          q.filterMap (overrideFor (c :: cs)) =
            (q.map (fun s => if s.name = c.name then c else s)).filterMap
              (overrideFor cs) := by
        intro q
        induction q with
        | nil => rfl
        | cons a t ihq =>
            rw [List.map_cons, List.filterMap_cons, List.filterMap_cons]
            by_cases ha : c.name = a.name
            · rw [overrideFor_cons_pos c cs a ha, if_neg hb, if_pos ha.symm,
                overrideFor_not_found cs c hnotcs, ihq]
            · rw [overrideFor_cons_neg c cs a ha, if_neg (fun he => ha he.symm), ihq]
      have hB : childOnly parent (c :: cs) =
          childOnly (parent.map (fun s => if s.name = c.name then c else s)) cs := by
        rw [childOnly, childOnly]
        rw [List.filter_cons_of_neg ?hc]
        case hc =>
          obtain ⟨s, hs, hsn⟩ := List.mem_map.mp hm
          simp only [decide_eq_true_eq]
          rintro ⟨-, hall⟩
          have := List.all_eq_true.mp hall s hs
          simp [hsn] at this
        apply List.filter_congr
        intro x hx
        rw [all_name_congr x.name parent
          (parent.map (fun s => if s.name = c.name then c else s))
          (override_names c parent).symm]
      rw [mergeSpec, mergeSpec, hA parent, hB]
    · rw [mergeStep_append parent c hb hm]
      have hnotin : ∀ x ∈ parent, ¬ x.name = c.name := by
        intro x hx he
        apply hm
        rw [← he]
        exact List.mem_map_of_mem Section.name hx
      have hnotcs : ∀ x ∈ cs, ¬ x.name = c.name := by
        intro x hx he
        apply hcn
        rw [← he]
        exact List.mem_map_of_mem Section.name hx
      have hA : parent.filterMap (overrideFor (c :: cs)) =
          parent.filterMap (overrideFor cs) := by
        apply List.filterMap_congr
        intro x hx
        exact overrideFor_cons_neg c cs x (fun he => hnotin x hx he.symm)
      have hfc : [c].filterMap (overrideFor cs) = [c] := by
        have ho : overrideFor cs c = some c := overrideFor_not_found cs c hnotcs
        simp [ho]
      have hB : childOnly parent (c :: cs) = c :: childOnly parent cs := by
        rw [childOnly, childOnly, List.filter_cons_of_pos ?hc]
        case hc =>
          simp only [decide_eq_true_eq]
          refine ⟨hb, List.all_eq_true.mpr ?_⟩
          intro s hs
          simpa using hnotin s hs
      have hC : childOnly parent cs = childOnly (parent ++ [c]) cs := by
        rw [childOnly, childOnly]
        apply List.filter_congr
        intro x hx
        have hxname : ¬ c.name = x.name := by
          intro he
          apply hcn
          rw [he]
          exact List.mem_map_of_mem Section.name hx
        rw [List.all_append]
        have hone : ([c].all fun s => decide ¬ s.name = x.name) = true := by
          simp [hxname]
        rw [hone, Bool.and_true]
      rw [mergeSpec, mergeSpec, List.filterMap_append, hA, hfc, hB, ← hC,
        List.append_cons]

theorem mergeSections_eq_spec :
    ∀ (child parent : List Section), (parent.map Section.name).Nodup →
      (child.map Section.name).Nodup →
      mergeSections parent child = mergeSpec parent child := by
  intro child
  induction child with
  | nil =>
      intro parent _ _
      have h1 : parent.filterMap (overrideFor []) = parent := by
        have h2 : parent.filterMap (overrideFor []) = parent.filterMap some := rfl
        rw [h2, List.filterMap_some]
      show parent = mergeSpec parent []
      rw [mergeSpec, h1, childOnly]
      simp
  | cons c cs ih =>
      intro parent hpn hcn
      simp only [List.map_cons, List.nodup_cons] at hcn
      show mergeSections (mergeStep parent c) cs = mergeSpec parent (c :: cs)
      rw [ih (mergeStep parent c) (mergeStep_names_nodup c parent hpn) hcn.2,
        mergeSpec_step parent c cs hpn hcn.1]

/-- Claim C1: merging a child's sections onto the resolved parent list
processes the child sections in order; a child section whose name occurs
in the accumulated list replaces that section in place (position
unchanged), a new-named non-empty child section is appended at the end,
an empty-body child section removes the same-named section and is a
no-op when no such section exists; consequently — for the section lists
of well-formed records, whose names are unique — the result is the
parent's sections in the parent's order (overridden in place, removed
sections dropped) followed by the child-only sections in the child's
declared order (`mergeSpec`). -/
theorem merge_semantics :
    (∀ (acc : List Section) (c : Section) (cs : List Section),
        mergeSections acc (c :: cs) = mergeSections (mergeStep acc c) cs) ∧
    (∀ (acc : List Section) (c : Section), (acc.map Section.name).Nodup →
        ¬ c.body = "" → c.name ∈ acc.map Section.name →
        mergeSections acc [c] = acc.map (fun s => if s.name = c.name then c else s)) ∧
    (∀ (acc : List Section) (c : Section), ¬ c.body = "" →
        c.name ∉ acc.map Section.name → mergeSections acc [c] = acc ++ [c]) ∧
    (∀ (acc : List Section) (c : Section), (acc.map Section.name).Nodup →
        c.body = "" →
        mergeSections acc [c] = acc.filter (fun s => ¬ s.name = c.name)) ∧
    (∀ (acc : List Section) (c : Section), c.body = "" →
        c.name ∉ acc.map Section.name → mergeSections acc [c] = acc) ∧
    (∀ (parent child : List Section), (parent.map Section.name).Nodup →
        (child.map Section.name).Nodup →
        mergeSections parent child = mergeSpec parent child) :=
  ⟨fun _ _ _ => rfl,
    fun acc c hnd hb hm => mergeStep_override c hb acc hnd hm,
    fun acc c hb hm => mergeStep_append acc c hb hm,
    fun acc c hnd hb => mergeStep_remove c hb acc hnd,
    fun acc c hb hm => mergeStep_noop acc c hb hm,
    fun parent child hpn hcn => mergeSections_eq_spec child parent hpn hcn⟩

theorem merge_semantics_witness :
    (mergeSections [secA1, secB2] [secB3] = mergeSpec [secA1, secB2] [secB3] ∧
      mergeSpec [secA1, secB2] [secB3] = [secA1, secB3]) ∧
    (mergeSections [secA1, secB2] [secBdel] = mergeSpec [secA1, secB2] [secBdel] ∧
      mergeSpec [secA1, secB2] [secBdel] = [secA1]) ∧
    (mergeSections [secA1] [secC2] = mergeSpec [secA1] [secC2] ∧
      mergeSpec [secA1] [secC2] = [secA1, secC2]) ∧
    mergeSections [secA1, secB2] [secBdel, secC2] =
      mergeSpec [secA1, secB2] [secBdel, secC2] :=
  ⟨⟨merge_semantics.2.2.2.2.2 [secA1, secB2] [secB3] (by decide) (by decide), by decide⟩,
    ⟨merge_semantics.2.2.2.2.2 [secA1, secB2] [secBdel] (by decide) (by decide), by decide⟩,
    ⟨merge_semantics.2.2.2.2.2 [secA1] [secC2] (by decide) (by decide), by decide⟩,
    merge_semantics.2.2.2.2.2 [secA1, secB2] [secBdel, secC2] (by decide) (by decide)⟩

/-! ## The empty-body sentinel never reaches a resolution result -/

theorem mergeStep_no_empty (result : List Section) (c : Section)
    (h : ∀ s ∈ result, ¬ s.body = "") : ∀ s ∈ mergeStep result c, ¬ s.body = "" := by
  intro s hs
  rw [mergeStep] at hs
  cases hfi : result.findIdx? (fun x => decide (x.name = c.name)) with
  | some i =>
      simp only [hfi] at hs
      by_cases hb : c.body = ""
      · rw [if_pos hb] at hs
        exact h s (List.eraseIdx_subset result i hs)
      · rw [if_neg hb] at hs
        rcases List.mem_or_eq_of_mem_set hs with h1 | rfl
        · exact h s h1
        · exact hb
  | none =>
      simp only [hfi] at hs
      by_cases hb : c.body = ""
      · rw [if_pos hb] at hs
        exact h s hs
      · rw [if_neg hb] at hs
        rcases List.mem_append.mp hs with h1 | h1
        · exact h s h1
        · rw [List.mem_singleton] at h1
          subst h1
          exact hb

theorem mergeSections_no_empty (child : List Section) :
    ∀ parent : List Section, (∀ s ∈ parent, ¬ s.body = "") →
      ∀ s ∈ mergeSections parent child, ¬ s.body = "" := by
  induction child with
  | nil => intro parent h; exact h
  | cons c cs ih =>
      intro parent h
      exact ih (mergeStep parent c) (mergeStep_no_empty parent c h)

theorem resolveInner_no_empty_aux :
    ∀ (k : Nat) (visited : List String), MAX_INHERIT_DEPTH - visited.length ≤ k →
      ∀ (name : String) (prompts : List Prompt) (version : Option Nat)
        (res : RenderResult),
        resolveInner name prompts version visited = .ok res →
        ∀ s ∈ res.sections, ¬ s.body = "" := by
  intro k
  induction k with
  | zero =>
      intro visited hk name prompts version res hres
      rw [resolveInner] at hres
      by_cases hm : name ∈ visited
      · rw [if_pos hm] at hres; cases hres
      · rw [if_neg hm, dif_pos (by simp only [MAX_INHERIT_DEPTH] at hk ⊢; omega)] at hres
        cases hres
  | succ k ih =>
      intro visited hk name prompts version res hres
      rw [resolveInner] at hres
      by_cases hm : name ∈ visited
      · rw [if_pos hm] at hres; cases hres
      · rw [if_neg hm] at hres
        by_cases hd : MAX_INHERIT_DEPTH ≤ visited.length
        · rw [dif_pos hd] at hres; cases hres
        · rw [dif_neg hd] at hres
          cases hf : findPrompt prompts name version with
          | none => simp [hf] at hres
          | some p =>
              cases hx : p.«extends» with
              | none =>
                  simp only [hf, hx] at hres
                  cases hres
                  intro s hs
                  have := List.of_mem_filter hs
                  simpa using this
              | some parent =>
                  simp only [hf, hx] at hres
                  cases hpr : resolveInner parent prompts none (visited ++ [name]) with
                  | error e => simp [hpr] at hres
                  | ok pres =>
                      simp only [hpr] at hres
                      cases hres
                      have hfuel : MAX_INHERIT_DEPTH - (visited ++ [name]).length ≤ k := by
                        simp only [MAX_INHERIT_DEPTH, List.length_append,
                          List.length_cons, List.length_nil] at hk hd ⊢
                        omega
                      have hpres := ih (visited ++ [name]) hfuel parent prompts none pres hpr
                      exact mergeSections_no_empty p.sections pres.sections hpres

/-- Claim C10: whenever resolution succeeds — for any record set, name
and optional version — no section of the returned list carries the
empty-string body sentinel, at any chain depth. -/
theorem resolve_no_empty_bodies (name : String) (prompts : List Prompt)
    (version : Option Nat) (res : RenderResult)
    (h : resolvePrompt name prompts version = .ok res) :
    ∀ s ∈ res.sections, ¬ s.body = "" :=
  resolveInner_no_empty_aux MAX_INHERIT_DEPTH [] (by simp) name prompts version res h

theorem resolve_no_empty_bodies_witness :
    resolvePrompt "base" [exBase] none =
      .ok { sections := [⟨"A", "1", none⟩, ⟨"C", "2", none⟩],
            resolvedFrom := ["base"], version := 3 } ∧
    ∀ s ∈ [Section.mk "A" "1" none, Section.mk "C" "2" none], ¬ s.body = "" := by
  have hEval : resolvePrompt "base" [exBase] none =
      .ok { sections := [⟨"A", "1", none⟩, ⟨"C", "2", none⟩],
            resolvedFrom := ["base"], version := 3 } := by
    rw [resolvePrompt, resolveInner]
    simp [findPrompt, exBase, MAX_INHERIT_DEPTH]
  exact ⟨hEval, resolve_no_empty_bodies "base" [exBase] none _ hEval⟩

theorem resolve_cycle_detection_witness :
    exCycA.name ≠ exCycB.name ∧ exCycA.«extends» = some exCycB.name ∧
    exCycB.«extends» = some exCycA.name ∧
    resolvePrompt "a" [exCycA, exCycB] none =
      .error (.circular ["a", "b", "a"]) :=
  ⟨by decide, rfl, rfl,
    resolve_cycle_detection.2.1 exCycA exCycB (by decide) rfl rfl⟩

/-! ## Record store: line splitting -/

theorem splitLines_ne_nil : ∀ s : List Char, splitLines s ≠ [] := by
  intro s
  cases s with
  | nil => simp [splitLines]
  | cons c rest =>
      rw [splitLines]
      by_cases hc : c = '\n'
      · simp [hc]
      · simp only [hc, if_false]
        cases splitLines rest <;> simp

theorem splitLines_append_no_newline :
    ∀ (xs : List Char), '\n' ∉ xs →
      ∀ ys, splitLines (xs ++ '\n' :: ys) = xs :: splitLines ys := by
  intro xs
  induction xs with
  | nil =>
      intro _ ys
      simp [splitLines]
  | cons c rest ih =>
      intro hx ys
      simp only [List.mem_cons, not_or] at hx
      rw [List.cons_append, splitLines, if_neg (fun h => hx.1 h.symm)]
      rw [ih hx.2 ys]

theorem splitLines_no_newline (xs : List Char) (hx : '\n' ∉ xs) :
    splitLines xs = [xs] := by
  induction xs with
  | nil => rfl
  | cons c rest ih =>
      simp only [List.mem_cons, not_or] at hx
      rw [splitLines, if_neg (Ne.symm hx.1), ih hx.2]

theorem splitLines_two_chunks :
    ∀ rest : List Char, '\n' ∈ rest →
      ∃ l0 l1 ls, splitLines rest = l0 :: l1 :: ls := by
  intro rest
  induction rest with
  | nil => intro h; cases h
  | cons c t ih =>
      intro h
      by_cases hc : c = '\n'
      · rcases hx : splitLines t with _ | ⟨h0, ts⟩
        · exact absurd hx (splitLines_ne_nil t)
        · exact ⟨[], h0, ts, by rw [splitLines, if_pos hc, hx]⟩
      · have hmem : '\n' ∈ t := by
          rcases List.mem_cons.mp h with he | hm
          · exact absurd he.symm hc
          · exact hm
        obtain ⟨l0, l1, ls, hx⟩ := ih hmem
        exact ⟨c :: l0, l1, ls, by rw [splitLines, if_neg hc, hx]⟩

theorem splitLines_append_newline_end :
    ∀ (content : List Char), content.getLast? = some '\n' →
      ∀ extra, splitLines (content ++ extra) =
        (splitLines content).dropLast ++ splitLines extra := by
  intro content
  induction content with
  | nil => intro h; simp at h
  | cons c rest ih =>
      intro hlast extra
      cases rest with
      | nil =>
          simp only [List.getLast?_singleton, Option.some.injEq] at hlast
          subst hlast
          simp [splitLines]
      | cons r rs =>
          have hlast' : (r :: rs).getLast? = some '\n' := by
            rwa [List.getLast?_cons_cons] at hlast
          have hne := splitLines_ne_nil (r :: rs)
          by_cases hc : c = '\n'
          · subst hc
            have h1 : splitLines ('\n' :: (r :: rs) ++ extra) =
                [] :: splitLines ((r :: rs) ++ extra) := by
              rw [List.cons_append, splitLines, if_pos rfl]
            have h2 : splitLines ('\n' :: r :: rs) = [] :: splitLines (r :: rs) := by
              rw [splitLines, if_pos rfl]
            rw [h1, ih hlast' extra, h2]
            rcases hx : splitLines (r :: rs) with _ | ⟨l0, ls⟩
            · exact absurd hx hne
            · rfl
          · have hmem : '\n' ∈ r :: rs :=
              List.mem_of_mem_getLast? hlast'
            obtain ⟨l0, l1, ls, hx⟩ := splitLines_two_chunks (r :: rs) hmem
            have h1 : splitLines (c :: (r :: rs) ++ extra) =
                match splitLines ((r :: rs) ++ extra) with
                | [] => [[c]]
                | l :: ls' => (c :: l) :: ls' := by
              rw [List.cons_append, splitLines, if_neg hc]
            have h2 : splitLines (c :: r :: rs) =
                match splitLines (r :: rs) with
                | [] => [[c]]
                | l :: ls' => (c :: l) :: ls' := by
              rw [splitLines, if_neg hc]
            rw [h1, ih hlast' extra, h2, hx]
            rfl

/-- Claim C3 counterexample: a read failing with an I/O error other than
file absence does not make `readJsonl` fail — it returns an empty list,
exactly like a missing file. -/
theorem readJsonl_ioError_counterexample :
    readJsonl boolDec (.ioError "EACCES") = .ok [] ∧
    ∀ e : String, readJsonl boolDec (.ioError "EACCES") ≠ .error e :=
  ⟨rfl, fun _ h => Except.noConfusion h⟩

/-- Claim C3 (amended): `readJsonl` never fails: every read outcome yields
`.ok`; a missing file and any other I/O error both yield the empty list;
and a line the parser rejects is skipped without affecting the rest. -/
theorem readJsonl_total :
    (∀ (T : Type) (parse : List Char → Option T) (file : ReadOutcome),
        ∃ rs, readJsonl parse file = .ok rs) ∧
    (∀ (T : Type) (parse : List Char → Option T),
        readJsonl parse .enoent = .ok ([] : List T)) ∧
    (∀ (T : Type) (parse : List Char → Option T) (code : String),
        readJsonl parse (.ioError code) = .ok ([] : List T)) ∧
    (∀ (T : Type) (parse : List Char → Option T) (bad rest : List Char),
        '\n' ∉ bad → parse (trim bad) = none →
        readJsonl parse (.text (bad ++ '\n' :: rest)) =
          readJsonl parse (.text rest)) := by
  refine ⟨?_, fun _ _ => rfl, fun _ _ _ => rfl, ?_⟩
  · intro T parse file
    cases file <;> exact ⟨_, rfl⟩
  · intro T parse bad rest hnl hbad
    rw [readJsonl, readJsonl, parseLines, parseLines,
      splitLines_append_no_newline bad hnl rest, List.filterMap_cons]
    by_cases ht : trim bad = []
    · simp [lineParse, ht]
    · simp [lineParse, ht, hbad]

theorem readJsonl_total_witness :
    ('\n' ∉ ['x']) ∧ boolDec (trim ['x']) = none ∧
    readJsonl boolDec (.text (['x'] ++ '\n' :: ['t', '\n'])) =
      readJsonl boolDec (.text ['t', '\n']) ∧
    readJsonl boolDec (.text ['t', '\n']) = .ok [true] :=
  ⟨by decide, by decide,
    readJsonl_total.2.2.2 Bool boolDec ['x'] ['t', '\n'] (by decide) (by decide),
    rfl⟩

/-! ## Record store: append/read round trip -/

theorem lineParse_nil {T : Type} (parse : List Char → Option T) :
    lineParse parse [] = none := rfl

theorem parseLines_append {T : Type} (parse : List Char → Option T)
    (content : List Char) (hend : content.getLast? = some '\n') (extra : List Char) :
    parseLines parse (content ++ extra) =
      parseLines parse content ++ parseLines parse extra := by
  have h1 := splitLines_append_newline_end content hend extra
  have h2 := splitLines_append_newline_end content hend []
  rw [List.append_nil] at h2
  have h3 : splitLines ([] : List Char) = [[]] := rfl
  have h4 : List.filterMap (lineParse parse) [[]] = ([] : List T) := rfl
  have hc : parseLines parse content =
      List.filterMap (lineParse parse) (splitLines content).dropLast := by
    rw [parseLines]
    conv_lhs => rw [h2]
    rw [h3, List.filterMap_append, h4, List.append_nil]
  calc parseLines parse (content ++ extra)
      = List.filterMap (lineParse parse)
          ((splitLines content).dropLast ++ splitLines extra) := by
        rw [parseLines, h1]
    _ = List.filterMap (lineParse parse) (splitLines content).dropLast ++
          parseLines parse extra := by
        rw [List.filterMap_append, parseLines]
    _ = parseLines parse content ++ parseLines parse extra := by rw [hc]

theorem parseLines_single {T : Type} (parse : List Char → Option T) (r : T)
    (line : List Char) (hroundtrip : parse (trim line) = some r)
    (htrim : ¬ trim line = []) (hnl : '\n' ∉ line) :
    parseLines parse (line ++ ['\n']) = [r] := by
  have h1 : line ++ ['\n'] = line ++ '\n' :: [] := rfl
  have h3 : splitLines ([] : List Char) = [[]] := rfl
  rw [parseLines, h1, splitLines_append_no_newline line hnl [], h3,
    List.filterMap_cons]
  have htn : trim ([] : List Char) = [] := rfl
  simp [lineParse, htrim, hroundtrip, htn]

theorem appendJsonl_eq {T : Type} (enc : T → List Char) (file : Option (List Char))
    (r : T) : appendJsonl enc file r = (file.getD []) ++ (enc r ++ ['\n']) := by
  rw [appendJsonl]
  by_cases he : file.getD [] = []
  · rw [if_pos he, he]
    rfl
  · rw [if_neg he]

theorem appendJsonl_wellFormed {T : Type} (enc : T → List Char)
    (file : Option (List Char)) (r : T) :
    WellFormedFile (some (appendJsonl enc file r)) := by
  rw [WellFormedFile, appendJsonl_eq]
  right
  rw [← List.append_assoc, List.getLast?_concat]

theorem readJsonl_appendJsonl {T : Type} (enc : T → List Char)
    (parse : List Char → Option T) (file : Option (List Char)) (r : T)
    (prior : List T)
    (hroundtrip : parse (enc r) = some r) (htrim : trim (enc r) = enc r)
    (hnl : '\n' ∉ enc r) (hne : enc r ≠ [])
    (hwf : WellFormedFile file)
    (hprior : readJsonl parse (fileOutcome file) = .ok prior) :
    readJsonl parse (fileOutcome (some (appendJsonl enc file r))) =
      .ok (prior ++ [r]) := by
  have hone : parseLines parse (enc r ++ ['\n']) = [r] :=
    parseLines_single parse r (enc r) (by rw [htrim]; exact hroundtrip)
      (by rw [htrim]; exact hne) hnl
  rw [appendJsonl_eq]
  cases file with
  | none =>
      have hp : prior = [] := by
        rw [fileOutcome, readJsonl] at hprior
        exact (Except.ok.injEq _ _ ▸ hprior).symm
      subst hp
      rw [fileOutcome, readJsonl]
      simp only [Option.getD_none, List.nil_append]
      rw [hone]
  | some s =>
      rw [fileOutcome, readJsonl] at hprior
      have hp : prior = parseLines parse s := (Except.ok.injEq _ _ ▸ hprior).symm
      subst hp
      rw [fileOutcome, readJsonl]
      simp only [Option.getD_some]
      by_cases hsnil : s = []
      · subst hsnil
        simp only [List.nil_append]
        rw [hone]
        rfl
      · have hlast : s.getLast? = some '\n' := by
          rcases hwf with hnil | hlast
          · exact absurd hnil hsnil
          · exact hlast
        rw [parseLines_append parse s hlast (enc r ++ ['\n']), hone]

theorem readJsonl_appendAll {T : Type} (enc : T → List Char)
    (parse : List Char → Option T)
    (hroundtrip : ∀ r, parse (enc r) = some r) (htrim : ∀ r, trim (enc r) = enc r)
    (hnl : ∀ r, '\n' ∉ enc r) (hne : ∀ r, enc r ≠ []) :
    ∀ (records : List T) (file : Option (List Char)) (prior : List T),
      WellFormedFile file →
      readJsonl parse (fileOutcome file) = .ok prior →
      readJsonl parse (fileOutcome (appendAll enc file records)) =
        .ok (prior ++ records) := by
  intro records
  induction records with
  | nil =>
      intro file prior _ hprior
      rw [appendAll, List.foldl_nil, hprior, List.append_nil]
  | cons r rs ih =>
      intro file prior hwf hprior
      have hstep := readJsonl_appendJsonl enc parse file r prior
        (hroundtrip r) (htrim r) (hnl r) (hne r) hwf hprior
      have hwf2 := appendJsonl_wellFormed enc file r
      have hrest := ih (some (appendJsonl enc file r)) (prior ++ [r]) hwf2 hstep
      have hfold : appendAll enc file (r :: rs) =
          appendAll enc (some (appendJsonl enc file r)) rs := rfl
      rw [hfold, hrest]
      simp

/-! ## Insertion-ordered map lemmas -/

theorem mapGet_nil {K V : Type} [DecidableEq K] (k : K) :
    mapGet ([] : List (K × V)) k = none := rfl

theorem mapSet_append {K V : Type} [DecidableEq K] (m : List (K × V)) (k : K) (v : V)
    (h : m.any (fun p => p.1 = k) = false) : mapSet m k v = m ++ [(k, v)] := by
  rw [mapSet, if_neg (by rw [h]; exact Bool.false_ne_true)]

theorem mapSet_update {K V : Type} [DecidableEq K] (m : List (K × V)) (k : K) (v : V)
    (h : m.any (fun p => p.1 = k) = true) :
    mapSet m k v = m.map (fun p => if p.1 = k then (k, v) else p) := by
  rw [mapSet, if_pos h]

theorem mapGet_eq_none_iff {K V : Type} [DecidableEq K] (m : List (K × V)) (k : K) :
    mapGet m k = none ↔ m.any (fun p => p.1 = k) = false := by
  rw [mapGet, Option.map_eq_none', List.find?_eq_none, List.any_eq_false]

theorem find?_fst_map_update_other {K V : Type} [DecidableEq K] (k k' : K) (v : V)
    (hne : ¬ k' = k) :
    ∀ m : List (K × V),
      (m.map (fun p => if p.1 = k then (k, v) else p)).find? (fun p => p.1 = k') =
        m.find? (fun p => p.1 = k') := by
  intro m
  induction m with
  | nil => rfl
  | cons a t ih =>
      rw [List.map_cons]
      by_cases hak : a.1 = k
      · rw [if_pos hak]
        have h1 : ¬ (k, v).1 = k' := fun h => hne h.symm
        have h2 : ¬ a.1 = k' := by rw [hak]; exact fun h => hne h.symm
        rw [List.find?_cons_of_neg _ (by simpa using h1),
          List.find?_cons_of_neg _ (by simpa using h2), ih]
      · rw [if_neg hak]
        by_cases hak' : a.1 = k'
        · rw [List.find?_cons_of_pos _ (by simpa using hak'),
            List.find?_cons_of_pos _ (by simpa using hak')]
        · rw [List.find?_cons_of_neg _ (by simpa using hak'),
            List.find?_cons_of_neg _ (by simpa using hak'), ih]

theorem find?_fst_map_update_self {K V : Type} [DecidableEq K] (k : K) (v : V) :
    ∀ m : List (K × V), m.any (fun p => p.1 = k) = true →
      (m.map (fun p => if p.1 = k then (k, v) else p)).find? (fun p => p.1 = k) =
        some (k, v) := by
  intro m
  induction m with
  | nil => intro h; cases h
  | cons a t ih =>
      intro h
      rw [List.map_cons]
      by_cases hak : a.1 = k
      · rw [if_pos hak, List.find?_cons_of_pos _ (by simp)]
      · rw [if_neg hak, List.find?_cons_of_neg _ (by simpa using hak)]
        apply ih
        rw [List.any_cons] at h
        simpa [hak] using h

theorem mapGet_mapSet_self {K V : Type} [DecidableEq K] (m : List (K × V)) (k : K)
    (v : V) : mapGet (mapSet m k v) k = some v := by
  by_cases h : m.any (fun p => p.1 = k) = true
  · rw [mapSet_update m k v h, mapGet, find?_fst_map_update_self k v m h]
    rfl
  · rw [mapSet_append m k v (Bool.eq_false_iff.mpr h), mapGet, List.find?_append]
    rw [List.find?_eq_none.mpr ?hnone]
    case hnone =>
      intro p hp
      have := List.any_eq_false.mp (Bool.eq_false_iff.mpr h) p hp
      simpa using this
    rw [Option.none_or, List.find?_cons_of_pos _ (by simp)]
    rfl

theorem mapGet_mapSet_other {K V : Type} [DecidableEq K] (m : List (K × V)) (k k' : K)
    (v : V) (hne : ¬ k' = k) : mapGet (mapSet m k v) k' = mapGet m k' := by
  by_cases h : m.any (fun p => p.1 = k) = true
  · rw [mapSet_update m k v h, mapGet, find?_fst_map_update_other k k' v hne m, mapGet]
  · rw [mapSet_append m k v (Bool.eq_false_iff.mpr h), mapGet, List.find?_append]
    have hlast : ([(k, v)].find? (fun p => p.1 = k')) = none := by
      rw [List.find?_eq_none]
      intro p hp
      rw [List.mem_singleton] at hp
      subst hp
      simpa using fun he => hne he.symm
    rw [hlast, Option.or_none, mapGet]

theorem keys_map_update {K V : Type} [DecidableEq K] (k : K) (v : V)
    (m : List (K × V)) :
    (m.map (fun p => if p.1 = k then (k, v) else p)).map Prod.fst =
      m.map Prod.fst := by
  rw [List.map_map]
  apply List.map_congr_left
  intro p _
  by_cases hp : p.1 = k
  · simp [hp]
  · simp [hp]

theorem keys_mapSet_nodup {K V : Type} [DecidableEq K] (m : List (K × V)) (k : K)
    (v : V) (hnd : (m.map Prod.fst).Nodup) :
    ((mapSet m k v).map Prod.fst).Nodup := by
  by_cases h : m.any (fun p => p.1 = k) = true
  · rw [mapSet_update m k v h, keys_map_update]
    exact hnd
  · rw [mapSet_append m k v (Bool.eq_false_iff.mpr h), List.map_append]
    rw [List.nodup_append]
    refine ⟨hnd, List.nodup_singleton _, ?_⟩
    intro x hx hx'
    simp only [List.map_cons, List.map_nil, List.mem_singleton] at hx'
    subst hx'
    obtain ⟨p, hp, hpk⟩ := List.mem_map.mp hx
    exact absurd (List.any_eq_true.mpr ⟨p, hp, by simpa using hpk⟩)
      (Bool.eq_false_iff.mpr h ▸ Bool.false_ne_true)

theorem mem_mapSet {K V : Type} [DecidableEq K] (m : List (K × V)) (k : K) (v : V)
    (p : K × V) (hp : p ∈ mapSet m k v) : p ∈ m ∨ p = (k, v) := by
  by_cases h : m.any (fun q => q.1 = k) = true
  · rw [mapSet_update m k v h] at hp
    obtain ⟨q, hq, hqe⟩ := List.mem_map.mp hp
    by_cases hqk : q.1 = k
    · rw [if_pos hqk] at hqe
      exact Or.inr hqe.symm
    · rw [if_neg hqk] at hqe
      exact Or.inl (hqe ▸ hq)
  · rw [mapSet_append m k v (Bool.eq_false_iff.mpr h)] at hp
    rcases List.mem_append.mp hp with h1 | h1
    · exact Or.inl h1
    · rw [List.mem_singleton] at h1
      exact Or.inr h1

theorem mapGet_of_mem {K V : Type} [DecidableEq K] (m : List (K × V))
    (hnd : (m.map Prod.fst).Nodup) (p : K × V) (hp : p ∈ m) :
    mapGet m p.1 = some p.2 := by
  induction m with
  | nil => cases hp
  | cons a t ih =>
      simp only [List.map_cons, List.nodup_cons] at hnd
      rcases List.mem_cons.mp hp with rfl | hpt
      · rw [mapGet, List.find?_cons_of_pos _ (by simp)]
        rfl
      · have hne : ¬ a.1 = p.1 := by
          intro he
          exact hnd.1 (he ▸ List.mem_map_of_mem Prod.fst hpt)
        rw [mapGet, List.find?_cons_of_neg _ (by simpa using hne), ← mapGet]
        exact ih hnd.2 hpt

theorem mem_of_mapGet {K V : Type} [DecidableEq K] (m : List (K × V)) (k : K) (v : V)
    (h : mapGet m k = some v) : (k, v) ∈ m := by
  rw [mapGet] at h
  rcases hf : m.find? (fun p => p.1 = k) with _ | ⟨p⟩
  · rw [hf] at h
    cases h
  · rw [hf] at h
    have hp1 : p.1 = k := by simpa using List.find?_some hf
    have hp2 : p.2 = v := by simpa using h
    have := List.mem_of_find?_eq_some hf
    rw [← hp1, ← hp2]
    exact this

/-! ## The kept record per identity: maximum version, last occurrence -/

theorem maxVersion_nil {T : Type} (version : T → Nat) :
    maxVersion version [] = 0 := rfl

theorem maxVersion_cons {T : Type} (version : T → Nat) (x : T) (t : List T) :
    maxVersion version (x :: t) = max (version x) (maxVersion version t) := rfl

theorem maxVersion_ge {T : Type} (version : T → Nat) :
    ∀ (g : List T) (s : T), s ∈ g → version s ≤ maxVersion version g := by
  intro g
  induction g with
  | nil => intro s hs; cases hs
  | cons x t ih =>
      intro s hs
      rw [maxVersion_cons]
      rcases List.mem_cons.mp hs with rfl | hst
      · exact Nat.le_max_left _ _
      · exact le_trans (ih s hst) (Nat.le_max_right _ _)

theorem maxVersion_snoc {T : Type} (version : T → Nat) :
    ∀ (g : List T) (r : T),
      maxVersion version (g ++ [r]) = max (maxVersion version g) (version r) := by
  intro g
  induction g with
  | nil =>
      intro r
      rw [List.nil_append, maxVersion_cons, maxVersion_nil]
      exact Nat.max_comm _ _
  | cons x t ih =>
      intro r
      rw [List.cons_append, maxVersion_cons, ih r, maxVersion_cons, Nat.max_assoc]

theorem maxVersion_attained {T : Type} (version : T → Nat) :
    ∀ g : List T, g ≠ [] → ∃ s ∈ g, version s = maxVersion version g := by
  intro g
  induction g with
  | nil => intro h; exact absurd rfl h
  | cons x t ih =>
      intro _
      rw [maxVersion_cons]
      cases t with
      | nil =>
          refine ⟨x, List.mem_singleton_self x, ?_⟩
          rw [maxVersion_nil, Nat.max_eq_left (Nat.zero_le _)]
      | cons y ys =>
          rcases Nat.le_total (maxVersion version (y :: ys)) (version x) with hle | hle
          · exact ⟨x, List.mem_cons_self _ _, (Nat.max_eq_left hle).symm⟩
          · obtain ⟨s, hs, hsv⟩ := ih (by simp)
            exact ⟨s, List.mem_cons_of_mem _ hs, by rw [Nat.max_eq_right hle, hsv]⟩

theorem lastMax_nil {T : Type} (version : T → Nat) :
    lastMax version ([] : List T) = none := rfl

theorem lastMax_eq_none_iff {T : Type} (version : T → Nat) (g : List T) :
    lastMax version g = none ↔ g = [] := by
  constructor
  · intro h
    by_contra hne
    obtain ⟨s, hs, hsv⟩ := maxVersion_attained version g hne
    rw [lastMax, List.getLast?_eq_none_iff] at h
    have : s ∈ g.filter (fun x => version x = maxVersion version g) :=
      List.mem_filter.mpr ⟨hs, by simpa using hsv⟩
    rw [h] at this
    cases this
  · intro h
    subst h
    rfl

theorem lastMax_mem {T : Type} (version : T → Nat) (g : List T) (r : T)
    (h : lastMax version g = some r) :
    r ∈ g ∧ version r = maxVersion version g := by
  rw [lastMax] at h
  have hmem := List.mem_of_mem_getLast? h
  have := List.mem_filter.mp hmem
  exact ⟨this.1, by simpa using this.2⟩

theorem lastMax_snoc {T : Type} (version : T → Nat) (g : List T) (r : T) :
    lastMax version (g ++ [r]) =
      if maxVersion version g ≤ version r then some r else lastMax version g := by
  by_cases hle : maxVersion version g ≤ version r
  · rw [if_pos hle, lastMax, maxVersion_snoc, Nat.max_eq_right hle,
      List.filter_append]
    rw [List.filter_cons_of_pos (by simp), List.filter_nil, List.getLast?_concat]
  · rw [if_neg hle, lastMax, maxVersion_snoc, Nat.max_eq_left (Nat.le_of_not_le hle),
      List.filter_append]
    rw [List.filter_cons_of_neg (by simpa using fun he => hle (Nat.le_of_eq he.symm)),
      List.filter_nil, List.append_nil, lastMax]

/-! ## `dedupById`: fold invariant and specification -/

theorem dedup_fold_inv {T : Type} (id : T → String) (version : T → Nat) :
    ∀ l : List T,
      ((l.foldl (dedupStep id version) []).map Prod.fst).Nodup ∧
      (∀ p ∈ l.foldl (dedupStep id version) [], id p.2 = p.1) ∧
      (∀ k : String, mapGet (l.foldl (dedupStep id version) []) k =
        lastMax version (l.filter (fun r => id r = k))) := by
  intro l
  induction l using List.reverseRecOn with
  | nil =>
      refine ⟨by simp, by simp, fun k => ?_⟩
      rw [List.foldl_nil, List.filter_nil, mapGet_nil, lastMax_nil]
  | append_singleton l r ih =>
      obtain ⟨hnd, hpairs, hget⟩ := ih
      have hfold : (l ++ [r]).foldl (dedupStep id version) [] =
          dedupStep id version (l.foldl (dedupStep id version) []) r := by
        rw [List.foldl_append, List.foldl_cons, List.foldl_nil]
      rw [hfold]
      rcases hg : mapGet (l.foldl (dedupStep id version) []) (id r) with _ | ⟨e⟩
      · have hstep : dedupStep id version (l.foldl (dedupStep id version) []) r =
            mapSet (l.foldl (dedupStep id version) []) (id r) r := by
          rw [dedupStep]
          simp only [hg]
        rw [hstep]
        refine ⟨keys_mapSet_nodup _ _ _ hnd, ?_, ?_⟩
        · intro p hp
          rcases mem_mapSet _ _ _ p hp with hold | rfl
          · exact hpairs p hold
          · rfl
        · intro k
          by_cases hk : k = id r
          · subst hk
            rw [mapGet_mapSet_self, List.filter_append,
              List.filter_cons_of_pos (by simp), List.filter_nil, lastMax_snoc]
            have hempty : l.filter (fun x => id x = id r) = [] := by
              have h2 := hget (id r)
              rw [hg] at h2
              exact (lastMax_eq_none_iff version _).mp h2.symm
            rw [hempty]
            rw [if_pos (by rw [maxVersion_nil]; exact Nat.zero_le _)]
          · rw [mapGet_mapSet_other _ _ _ _ hk, hget k, List.filter_append,
              List.filter_cons_of_neg (by simpa using fun he => hk he.symm),
              List.filter_nil, List.append_nil]
      · have hlm := hget (id r)
        rw [hg] at hlm
        have hvere : version e = maxVersion version (l.filter (fun x => id x = id r)) :=
          (lastMax_mem version _ e hlm.symm).2
        by_cases hle : version e ≤ version r
        · have hstep : dedupStep id version (l.foldl (dedupStep id version) []) r =
              mapSet (l.foldl (dedupStep id version) []) (id r) r := by
            rw [dedupStep]
            simp only [hg]
            rw [if_pos hle]
          rw [hstep]
          refine ⟨keys_mapSet_nodup _ _ _ hnd, ?_, ?_⟩
          · intro p hp
            rcases mem_mapSet _ _ _ p hp with hold | rfl
            · exact hpairs p hold
            · rfl
          · intro k
            by_cases hk : k = id r
            · subst hk
              rw [mapGet_mapSet_self, List.filter_append,
                List.filter_cons_of_pos (by simp), List.filter_nil, lastMax_snoc]
              rw [if_pos (by rw [← hvere]; exact hle)]
            · rw [mapGet_mapSet_other _ _ _ _ hk, hget k, List.filter_append,
                List.filter_cons_of_neg (by simpa using fun he => hk he.symm),
                List.filter_nil, List.append_nil]
        · have hstep : dedupStep id version (l.foldl (dedupStep id version) []) r =
              l.foldl (dedupStep id version) [] := by
            rw [dedupStep]
            simp only [hg]
            rw [if_neg hle]
          rw [hstep]
          refine ⟨hnd, hpairs, ?_⟩
          intro k
          by_cases hk : k = id r
          · subst hk
            rw [hg, List.filter_append, List.filter_cons_of_pos (by simp),
              List.filter_nil, lastMax_snoc]
            rw [if_neg (by rw [← hvere]; exact hle), hlm.symm]
          · rw [hget k, List.filter_append,
              List.filter_cons_of_neg (by simpa using fun he => hk he.symm),
              List.filter_nil, List.append_nil]

theorem find?_congr_mem {α : Type} (p q : α → Bool) :
    ∀ l : List α, (∀ a ∈ l, p a = q a) → l.find? p = l.find? q := by
  intro l
  induction l with
  | nil => intro _; rfl
  | cons a t ih =>
      intro h
      by_cases hp : p a = true
      · rw [List.find?_cons_of_pos _ hp, List.find?_cons_of_pos _ (by
          rw [← h a (List.mem_cons_self _ _)]; exact hp)]
      · rw [List.find?_cons_of_neg _ hp, List.find?_cons_of_neg _ (by
          rw [← h a (List.mem_cons_self _ _)]; exact hp),
          ih (fun x hx => h x (List.mem_cons_of_mem _ hx))]

/-- Claim C2: `dedupById` returns exactly one record per distinct `id`;
for each `id` the kept record is `lastMax` of that id's group — the last
occurrence among the records carrying the group's maximum version.
Conjuncts: (1) the result holds no two records with the same id; (2) the
result's record for each id is exactly `lastMax` of the id's group;
(3) an id occurs in the result exactly when it occurs in the input;
(4) `lastMax` itself picks a group member of maximal version that is the
last occurrence of that version. -/
theorem dedupById_latest (T : Type) (id : T → String) (version : T → Nat)
    (l : List T) :
    ((dedupById id version l).map id).Nodup ∧
    (∀ k : String, (dedupById id version l).find? (fun r => id r = k) =
        lastMax version (l.filter (fun r => id r = k))) ∧
    (∀ k : String, (∃ r, r ∈ dedupById id version l ∧ id r = k) ↔
        ∃ r, r ∈ l ∧ id r = k) ∧
    (∀ (g : List T) (r : T), lastMax version g = some r →
        r ∈ g ∧ (∀ s ∈ g, version s ≤ version r) ∧
        (g.filter (fun s => version s = version r)).getLast? = some r) := by
  obtain ⟨hnd, hpairs, hget⟩ := dedup_fold_inv id version l
  have hval : dedupById id version l =
      (l.foldl (dedupStep id version) []).map (fun p => p.2) := rfl
  refine ⟨?_, ?_, ?_, ?_⟩
  · have he : (dedupById id version l).map id =
        (l.foldl (dedupStep id version) []).map Prod.fst := by
      rw [hval, List.map_map]
      exact List.map_congr_left (fun p hp => hpairs p hp)
    rw [he]
    exact hnd
  · intro k
    rw [hval, List.find?_map]
    have hcong : (l.foldl (dedupStep id version) []).find?
          ((fun r => decide (id r = k)) ∘ (fun p => p.2)) =
        (l.foldl (dedupStep id version) []).find? (fun p => decide (p.1 = k)) := by
      apply find?_congr_mem
      intro p hp
      simp only [Function.comp]
      rw [hpairs p hp]
    rw [hcong, ← mapGet, hget k]
  · intro k
    have h1 : (∃ r, r ∈ dedupById id version l ∧ id r = k) ↔
        ¬ mapGet (l.foldl (dedupStep id version) []) k = none := by
      constructor
      · rintro ⟨r, hr, hid⟩ hnone
        rw [hval] at hr
        obtain ⟨p, hp, hpe⟩ := List.mem_map.mp hr
        have hkey : p.1 = k := by rw [← hpairs p hp, hpe, hid]
        have := mapGet_of_mem _ hnd p hp
        rw [hkey, hnone] at this
        cases this
      · intro hne
        rcases hv : mapGet (l.foldl (dedupStep id version) []) k with _ | ⟨v⟩
        · exact absurd hv hne
        · have hm := mem_of_mapGet _ _ _ hv
          refine ⟨v, ?_, ?_⟩
          · rw [hval]
            exact List.mem_map_of_mem (fun p => p.2) hm
          · have := hpairs (k, v) hm
            exact this
    have h2 : (∃ r, r ∈ l ∧ id r = k) ↔
        ¬ l.filter (fun r => id r = k) = [] := by
      constructor
      · rintro ⟨r, hr, hid⟩ hnil
        have hmf : r ∈ l.filter (fun r => id r = k) :=
          List.mem_filter.mpr ⟨hr, by simpa using hid⟩
        rw [hnil] at hmf
        cases hmf
      · intro hne
        rcases hx : l.filter (fun r => id r = k) with _ | ⟨r, t⟩
        · exact absurd hx hne
        · have hr : r ∈ l.filter (fun r => id r = k) := by
            rw [hx]
            exact List.mem_cons_self _ _
          have := List.mem_filter.mp hr
          exact ⟨r, this.1, by simpa using this.2⟩
    rw [h1, h2, hget k]
    exact not_congr (lastMax_eq_none_iff version _)
  · intro g r h
    obtain ⟨hmem, hver⟩ := lastMax_mem version g r h
    refine ⟨hmem, fun s hs => hver ▸ maxVersion_ge version g s hs, ?_⟩
    rw [lastMax] at h
    rw [hver]
    exact h

theorem dedupById_latest_witness :
    dedupById Prompt.id Prompt.version exDedup = [exD4, exD3] ∧
    (dedupById Prompt.id Prompt.version exDedup).find? (fun r => r.id = "a") =
      lastMax Prompt.version (exDedup.filter (fun r => r.id = "a")) ∧
    lastMax Prompt.version (exDedup.filter (fun r => r.id = "a")) = some exD4 ∧
    (exD4 ∈ exDedup.filter (fun r => r.id = "a") ∧
      (∀ s ∈ exDedup.filter (fun r => r.id = "a"),
        Prompt.version s ≤ Prompt.version exD4) ∧
      ((exDedup.filter (fun r => r.id = "a")).filter
          (fun s => Prompt.version s = Prompt.version exD4)).getLast? = some exD4) :=
  ⟨by decide,
    (dedupById_latest Prompt Prompt.id Prompt.version exDedup).2.1 "a",
    by decide,
    (dedupById_latest Prompt Prompt.id Prompt.version exDedup).2.2.2
      (exDedup.filter (fun r => r.id = "a")) exD4 (by decide)⟩

/-! ## `getVersions`: fold invariant and specification -/

theorem versions_fold_inv {T : Type} (id : T → String) (version : T → Nat)
    (i : String) :
    ∀ l : List T,
      ((l.foldl (versionStep id version i) []).map Prod.fst).Nodup ∧
      (∀ p ∈ l.foldl (versionStep id version i) [],
        version p.2 = p.1 ∧ id p.2 = i) ∧
      (∀ ver : Nat, mapGet (l.foldl (versionStep id version i) []) ver =
        (l.filter (fun r => id r = i ∧ version r = ver)).getLast?) := by
  intro l
  induction l using List.reverseRecOn with
  | nil =>
      refine ⟨by simp, by simp, fun v => ?_⟩
      rw [List.foldl_nil, List.filter_nil, mapGet_nil]
      rfl
  | append_singleton l r ih =>
      obtain ⟨hnd, hpairs, hget⟩ := ih
      have hfold : (l ++ [r]).foldl (versionStep id version i) [] =
          versionStep id version i (l.foldl (versionStep id version i) []) r := by
        rw [List.foldl_append, List.foldl_cons, List.foldl_nil]
      rw [hfold]
      by_cases hid : id r = i
      · have hstep : versionStep id version i (l.foldl (versionStep id version i) []) r =
            mapSet (l.foldl (versionStep id version i) []) (version r) r := by
          rw [versionStep, if_pos hid]
        rw [hstep]
        refine ⟨keys_mapSet_nodup _ _ _ hnd, ?_, ?_⟩
        · intro p hp
          rcases mem_mapSet _ _ _ p hp with hold | rfl
          · exact hpairs p hold
          · exact ⟨rfl, hid⟩
        · intro v
          rw [List.filter_append]
          by_cases hv : v = version r
          · subst hv
            rw [mapGet_mapSet_self,
              List.filter_cons_of_pos (by simp [hid]), List.filter_nil,
              List.getLast?_concat]
          · rw [mapGet_mapSet_other _ _ _ _ hv, hget v,
              List.filter_cons_of_neg (by simp [hid]; exact fun he => hv he.symm),
              List.filter_nil, List.append_nil]
      · have hstep : versionStep id version i (l.foldl (versionStep id version i) []) r =
            l.foldl (versionStep id version i) [] := by
          rw [versionStep, if_neg hid]
        rw [hstep]
        refine ⟨hnd, hpairs, fun v => ?_⟩
        rw [hget v, List.filter_append,
          List.filter_cons_of_neg (by simp [hid]), List.filter_nil, List.append_nil]

/-- Claim C8: (1) appending N records sequentially to any well-formed
initial file state and reading back yields exactly the prior records
followed by the N appended records in append order, for any serializer
with the properties JSON line serialization has; (2) for any on-disk
record order, `getVersions` returns the queried id's records
deduplicated by exact version — last occurrence wins — in strictly
ascending version order. -/
theorem store_append_order_and_versions :
    (∀ (T : Type) (enc : T → List Char) (parse : List Char → Option T),
        (∀ r, parse (enc r) = some r) → (∀ r, trim (enc r) = enc r) →
        (∀ r, '\n' ∉ enc r) → (∀ r, enc r ≠ []) →
        ∀ (records : List T) (file : Option (List Char)) (prior : List T),
          WellFormedFile file →
          readJsonl parse (fileOutcome file) = .ok prior →
          readJsonl parse (fileOutcome (appendAll enc file records)) =
            .ok (prior ++ records)) ∧
    (∀ (T : Type) (id : T → String) (version : T → Nat) (l : List T) (i : String),
        (getVersions id version l i).Pairwise (fun a b => version a < version b) ∧
        (∀ r : T, r ∈ getVersions id version l i ↔
          (id r = i ∧
            (l.filter (fun s => id s = i ∧ version s = version r)).getLast? =
              some r))) := by
  refine ⟨fun T enc parse h1 h2 h3 h4 => readJsonl_appendAll enc parse h1 h2 h3 h4, ?_⟩
  intro T id version l i
  obtain ⟨hnd, hpairs, hget⟩ := versions_fold_inv id version i l
  have hperm := List.mergeSort_perm
    ((l.foldl (versionStep id version i) []).map (fun p => p.2))
    (fun a b => version a ≤ version b)
  have hsorted : (getVersions id version l i).Pairwise
      (fun a b => decide (version a ≤ version b) = true) := by
    apply List.sorted_mergeSort
    · intro a b c hab hbc
      simp only [decide_eq_true_eq] at hab hbc ⊢
      omega
    · intro a b
      simp only [Bool.or_eq_true, decide_eq_true_eq]
      omega
  have hvers : ((l.foldl (versionStep id version i) []).map
      (fun p => p.2)).map version =
      (l.foldl (versionStep id version i) []).map Prod.fst := by
    rw [List.map_map]
    exact List.map_congr_left (fun p hp => (hpairs p hp).1)
  have hmemval : ∀ r : T,
      r ∈ (l.foldl (versionStep id version i) []).map (fun p => p.2) ↔
        (id r = i ∧ (l.filter (fun s => id s = i ∧ version s = version r)).getLast? =
          some r) := by
    intro r
    constructor
    · intro hr
      obtain ⟨p, hp, hpe⟩ := List.mem_map.mp hr
      obtain ⟨hv, hi⟩ := hpairs p hp
      subst hpe
      refine ⟨hi, ?_⟩
      rw [hv, ← hget p.1]
      exact mapGet_of_mem _ hnd p hp
    · rintro ⟨hi, hlast⟩
      have := hget (version r)
      rw [hlast] at this
      exact List.mem_map_of_mem (fun p => p.2) (mem_of_mapGet _ _ _ this)
  constructor
  · have hndv : ((getVersions id version l i).map version).Nodup := by
      have h0 : (((l.foldl (versionStep id version i) []).map
          (fun p => p.2)).map version).Nodup := by
        rw [hvers]
        exact hnd
      exact ((hperm.map version).nodup_iff).mpr h0
    have hne : (getVersions id version l i).Pairwise
        (fun a b => version a ≠ version b) :=
      List.pairwise_map.mp hndv
    refine (hsorted.and hne).imp ?_
    intro a b hab
    have hle : version a ≤ version b := by simpa using hab.1
    exact lt_of_le_of_ne hle hab.2
  · intro r
    rw [← hmemval r]
    exact hperm.mem_iff

theorem store_append_order_and_versions_witness :
    (readJsonl boolDec (fileOutcome (appendAll boolEnc none [true, false])) =
      .ok ([] ++ [true, false])) ∧
    appendAll boolEnc none [true, false] = some ['t', '\n', 'f', '\n'] ∧
    readJsonl boolDec (.text ['t', '\n', 'f', '\n']) = .ok [true, false] :=
  ⟨store_append_order_and_versions.1 Bool boolEnc boolDec
      (by decide) (by decide) (by decide) (by decide)
      [true, false] none [] trivial rfl,
    rfl, rfl⟩

/-! ## Lock manager: stale reclamation and polling -/

theorem acquireGo_succ_stale (deadline fuel : Nat) (w : LockWorld) (mtime : Nat)
    (hm : w.marker = some mtime) (hstale : LOCK_STALE_MS < w.time - mtime)
    (hlt : w.time < deadline) :
    acquireGo deadline (fuel + 1) w = acquireGo deadline fuel { w with marker := none } := by
  rw [acquireGo, if_pos hlt]
  simp only [hm]
  rw [if_pos hstale]

theorem acquireGo_succ_fresh (deadline fuel : Nat) (w : LockWorld) (mtime : Nat)
    (hm : w.marker = some mtime) (hfresh : ¬ LOCK_STALE_MS < w.time - mtime)
    (hlt : w.time < deadline) :
    acquireGo deadline (fuel + 1) w =
      acquireGo deadline fuel { w with time := w.time + LOCK_RETRY_MS } := by
  rw [acquireGo, if_pos hlt]
  simp only [hm]
  rw [if_neg hfresh]

theorem acquireGo_succ_free (deadline fuel : Nat) (w : LockWorld)
    (hm : w.marker = none) (hlt : w.time < deadline) :
    acquireGo deadline (fuel + 1) w = .ok { w with marker := some w.time } := by
  rw [acquireGo, if_pos hlt]
  simp only [hm]

/-- Claim C9: an acquire attempt that finds a marker older than the 30s
stale threshold unlinks it and retries immediately — the wall clock does
not advance, so the very next iteration acquires the lock at the same
instant, far below the 5s timeout; a marker at most 30s old is left in
place and the acquirer sleeps the 50ms poll interval before retrying. -/
theorem acquire_stale_reclaim :
    (∀ (deadline fuel : Nat) (w : LockWorld) (mtime : Nat),
        w.marker = some mtime → LOCK_STALE_MS < w.time - mtime → w.time < deadline →
        acquireGo deadline (fuel + 1) w =
          acquireGo deadline fuel { w with marker := none }) ∧
    (∀ (deadline fuel : Nat) (w : LockWorld) (mtime : Nat),
        w.marker = some mtime → LOCK_STALE_MS < w.time - mtime → w.time < deadline →
        acquireGo deadline (fuel + 2) w =
          .ok { time := w.time, marker := some w.time }) ∧
    (∀ (fuel : Nat) (w : LockWorld) (mtime : Nat),
        w.marker = some mtime → LOCK_STALE_MS < w.time - mtime →
        acquireLock (fuel + 2) w = .ok { time := w.time, marker := some w.time }) ∧
    (∀ (deadline fuel : Nat) (w : LockWorld) (mtime : Nat),
        w.marker = some mtime → ¬ LOCK_STALE_MS < w.time - mtime → w.time < deadline →
        acquireGo deadline (fuel + 1) w =
          acquireGo deadline fuel { w with time := w.time + LOCK_RETRY_MS }) := by
  have hstep2 : ∀ (deadline fuel : Nat) (w : LockWorld) (mtime : Nat),
      w.marker = some mtime → LOCK_STALE_MS < w.time - mtime → w.time < deadline →
      acquireGo deadline (fuel + 2) w =
        .ok { time := w.time, marker := some w.time } := by
    intro deadline fuel w mtime hm hstale hlt
    rw [acquireGo_succ_stale deadline (fuel + 1) w mtime hm hstale hlt]
    exact acquireGo_succ_free deadline fuel { w with marker := none } rfl hlt
  refine ⟨acquireGo_succ_stale, hstep2, ?_, acquireGo_succ_fresh⟩
  intro fuel w mtime hm hstale
  rw [acquireLock]
  exact hstep2 (w.time + LOCK_TIMEOUT_MS) fuel w mtime hm hstale
    (by rw [LOCK_TIMEOUT_MS]; omega)

theorem acquire_stale_reclaim_witness :
    (LockWorld.mk 40000 (some 0)).marker = some 0 ∧
    LOCK_STALE_MS < (LockWorld.mk 40000 (some 0)).time - 0 ∧
    acquireLock 2 (LockWorld.mk 40000 (some 0)) =
      .ok { time := 40000, marker := some 40000 } ∧
    acquireGo 50000 1 (LockWorld.mk 40000 (some 39990)) =
      acquireGo 50000 0 (LockWorld.mk 40050 (some 39990)) :=
  ⟨rfl, by decide,
    acquire_stale_reclaim.2.2.1 0 (LockWorld.mk 40000 (some 0)) 0 rfl (by decide),
    acquire_stale_reclaim.2.2.2 50000 0 (LockWorld.mk 40000 (some 39990)) 39990
      rfl (by decide) (by decide)⟩

end Canopy